import Mathlib

/-!
Shallow embedding of the `dir_walker` crate (src/src/lib.rs) and proofs about it.

The filesystem is modelled as an oracle `Fs`:
  * `listing p`   models `std::fs::read_dir(p)`: `none` is an I/O error, `some l`
    the successfully enumerated children (per-child `Result`s are modelled as
    already unwrapped, matching the `filter_map(|e| e.ok())` in the source);
  * `kind p`      models the metadata queries `is_dir` / `is_file` / `is_symlink`;
  * `canonical p` models `Path::canonicalize`: `none` is an I/O error.

Rust `usize` counters stay well inside machine bounds here (they count visited
entries), so they are modelled as `Nat`.  Code that can panic (`unwrap`,
`expect`) is modelled with the `POut` outcome type, which distinguishes a panic
from a returned `Err`.
-/

namespace DirWalker

/-- Kind of a filesystem object, as seen by `is_dir` / `is_file` / `is_symlink`. -/
inductive FileKind where
  | dir
  | file
  | symlink
  | other
deriving DecidableEq

/-- Model of `std::fs::DirEntry`: the full path `e.path()` and the final
component `e.file_name()`. -/
structure DirEnt where
  path : String
  name : String
deriving DecidableEq

/-- Filesystem oracle. -/
structure Fs where
  listing : String → Option (List DirEnt)
  kind : String → FileKind
  canonical : String → Option String

/-- Error kinds surfaced by the library (`std::io::ErrorKind`, grouped the way
the spec groups them). -/
inductive IOErrorKind where
  | ioError
  | invalidInput
deriving DecidableEq

/-- Outcome of Rust code that may panic: a returned value, a returned `Err`,
or a panic (`unwrap` / `expect` on a failure). -/
inductive POut (α : Type) where
  | ok : α → POut α
  | err : IOErrorKind → POut α
  | panic : String → POut α
deriving DecidableEq

/-- The `Walker` builder struct (src/src/lib.rs:106-118). -/
structure Walker where
  root : String
  skip_dotted : Bool
  skip_directories : List String
  max_depth : Nat
  max_entries : Nat
  _counter : Nat
deriving DecidableEq

/-- Model of `Walker::new` (src/src/lib.rs:138-147). -/
def Walker.new (root : String) : Walker :=
  { root := root
    skip_dotted := false
    skip_directories := []
    max_entries := 10000
    max_depth := 100
    _counter := 0 }

/-- Model of `Walker::skip_dotted` (src/src/lib.rs:164-167). -/
def Walker.skipDotted (w : Walker) : Walker :=
  { w with skip_dotted := true }

/-- Model of `Walker::max_depth` (src/src/lib.rs:209-212). -/
def Walker.maxDepth (w : Walker) (depth : Nat) : Walker :=
  { w with max_depth := depth }

/-- Model of `Walker::max_entries` (src/src/lib.rs:219-222). -/
def Walker.maxEntries (w : Walker) (max : Nat) : Walker :=
  { w with max_entries := max }

/-- The iterated `d.as_ref().canonicalize().unwrap()` inside
`Walker::skip_directories` (src/src/lib.rs:190-193): the first canonicalization
failure panics (`unwrap` on an `Err`). -/
def canonicalizeAll (fs : Fs) : List String → POut (List String)
  | [] => POut.ok []
  | d :: ds =>
    match fs.canonical d with
    | none => POut.panic ("called `Result::unwrap()` on an `Err` value")
    | some c =>
      match canonicalizeAll fs ds with
      | POut.ok cs => POut.ok (c :: cs)
      | POut.err e => POut.err e
      | POut.panic m => POut.panic m

/-- Model of `Walker::skip_directories` (src/src/lib.rs:189-195). -/
def skipDirectoriesOp (fs : Fs) (w : Walker) (directories : List String) : POut Walker :=
  match canonicalizeAll fs directories with
  | POut.ok cs => POut.ok { w with skip_directories := cs }
  | POut.err e => POut.err e
  | POut.panic m => POut.panic m

/-- Does the character list `pat` occur at the head of `l`? -/
def leadMatch : List Char → List Char → Bool
  | [], _ => true
  | _ :: _, [] => false
  | p :: ps, c :: cs => p == c && leadMatch ps cs

/-- Does the character list `pat` occur anywhere inside `l`?  Models
`str::contains` on a literal pattern. -/
def subMatch (pat : List Char) : List Char → Bool
  | [] => leadMatch pat []
  | c :: cs => leadMatch pat (c :: cs) || subMatch pat cs

/-- Substring test `s.contains(pat)` on strings. -/
def strContains (s pat : String) : Bool :=
  subMatch pat.data s.data

/-- Model of `Walker::should_skip` (src/src/lib.rs:330-334).  Returns `true` when the
entry is KEPT (the source uses it directly as a `filter` predicate).
`path.display().to_string()` is the path string itself in this model. -/
def shouldSkip (w : Walker) (path : String) : Bool :=
  let path_str := path
  !((w.skip_dotted && (strContains path_str ("/.") || strContains path_str ("\\.")))
    || w.skip_directories.contains path_str)

/-- Strict lexicographic order on character lists, by scalar value: the
host's natural byte ordering that `PathBuf`'s `Ord` uses on these paths. -/
def charListLt : List Char → List Char → Bool
  | [], [] => false
  | [], _ :: _ => true
  | _ :: _, [] => false
  | a :: as, b :: bs => decide (a.toNat < b.toNat) || (a == b && charListLt as bs)

/-- Strict path order on strings. -/
def pathLtB (a b : String) : Bool := charListLt a.data b.data

theorem charListLt_irrefl : ∀ x, charListLt x x = false := by
  intro x
  induction x with
  | nil => rfl
  | cons a as ih => simp [charListLt, ih]

theorem charListLt_trans : ∀ x y z, charListLt x y = true → charListLt y z = true →
    charListLt x z = true := by
  intro x
  induction x with
  | nil =>
    intro y z hxy hyz
    cases y with
    | nil => simp [charListLt] at hxy
    | cons b bs =>
      cases z with
      | nil => simp [charListLt] at hyz
      | cons c cs => rfl
  | cons a as ih =>
    intro y z hxy hyz
    cases y with
    | nil => simp [charListLt] at hxy
    | cons b bs =>
      cases z with
      | nil => simp [charListLt] at hyz
      | cons c cs =>
        simp only [charListLt, Bool.or_eq_true, Bool.and_eq_true, decide_eq_true_eq,
          beq_iff_eq] at hxy hyz ⊢
        rcases hxy with hab | ⟨hab, htl1⟩
        · rcases hyz with hbc | ⟨hbc, _⟩
          · exact Or.inl (lt_trans hab hbc)
          · subst hbc; exact Or.inl hab
        · subst hab
          rcases hyz with hbc | ⟨hbc, htl2⟩
          · exact Or.inl hbc
          · subst hbc; exact Or.inr ⟨rfl, ih bs cs htl1 htl2⟩

theorem charListLt_conn : ∀ x y, charListLt x y = false → charListLt y x = false →
    x = y := by
  intro x
  induction x with
  | nil =>
    intro y hxy _
    cases y with
    | nil => rfl
    | cons b bs => simp [charListLt] at hxy
  | cons a as ih =>
    intro y hxy hyx
    cases y with
    | nil => simp [charListLt] at hyx
    | cons b bs =>
      simp only [charListLt, Bool.or_eq_false_iff, Bool.and_eq_false_iff,
        decide_eq_false_iff_not, beq_eq_false_iff_ne, ne_eq, Bool.not_eq_true] at hxy hyx
      obtain ⟨hab, hxy2⟩ := hxy
      obtain ⟨hba, hyx2⟩ := hyx
      have hua : a.toNat = a.val.toBitVec.toNat := rfl
      have hub : b.toNat = b.val.toBitVec.toNat := rfl
      have hab2 : a = b :=
        Char.eq_of_val_eq (UInt32.eq_of_toBitVec_eq (BitVec.eq_of_toNat_eq (by omega)))
      subst hab2
      rcases hxy2 with hx | hx
      · exact absurd rfl hx
      · rcases hyx2 with hy | hy
        · exact absurd rfl hy
        · rw [ih bs hx hy]

theorem charListLt_asymm : ∀ x y, charListLt x y = true → charListLt y x = false := by
  intro x y hxy
  cases hyx : charListLt y x with
  | false => rfl
  | true =>
    have := charListLt_trans x y x hxy hyx
    rw [charListLt_irrefl] at this
    cases this

/-- Sort key order used by `entries.sort_by_key(|f| f.path())`
(src/src/lib.rs:324): the reflexive closure of the byte order on paths. -/
def pathLeB (a b : DirEnt) : Bool := !(pathLtB b.path a.path)

/-- Relation form of `pathLeB`, for `List.insertionSort`. -/
def pathLe (a b : DirEnt) : Prop := pathLeB a b = true

instance : DecidableRel pathLe := fun a b =>
  inferInstanceAs (Decidable (pathLeB a b = true))

instance : IsTotal DirEnt pathLe := by
  constructor
  intro a b
  by_cases h : charListLt b.path.data a.path.data = true
  · right
    have := charListLt_asymm _ _ h
    simp [pathLe, pathLeB, pathLtB, this]
  · left
    simp [pathLe, pathLeB, pathLtB]
    simpa using h

instance : IsTrans DirEnt pathLe := by
  constructor
  intro a b c hab hbc
  simp only [pathLe, pathLeB, pathLtB, Bool.not_eq_true', Bool.not_eq_true] at hab hbc ⊢
  cases hbc2 : charListLt b.path.data c.path.data with
  | false =>
    cases hca : charListLt c.path.data a.path.data with
    | false => rfl
    | true =>
      have hcb : charListLt c.path.data b.path.data = false := hbc
      have : b.path.data = c.path.data := charListLt_conn _ _ hbc2 hcb
      rw [← this] at hca
      rw [hca] at hab
      cases hab
  | true =>
    cases hca : charListLt c.path.data a.path.data with
    | false => rfl
    | true =>
      have := charListLt_trans _ _ _ hbc2 hca
      rw [this] at hab
      cases hab

/-- Strict version of `pathLe`, used in ordering proofs. -/
def pathLt (a b : DirEnt) : Prop := pathLtB a.path b.path = true

instance : IsAntisymm DirEnt pathLt := by
  constructor
  intro a b h1 h2
  simp only [pathLt, pathLtB] at h1 h2
  have := charListLt_asymm _ _ h1
  rw [this] at h2
  cases h2

/-- Model of `Walker::get_entries` (src/src/lib.rs:304-328): list one directory, apply
the filters, keep only directories (`dirs_only = true`) or only files, and sort
by path (`sort_by_key` is a stable sort; with the distinct paths of a real
directory listing any sort agrees with it, and `insertionSort` is stable). -/
def getEntries (fs : Fs) (w : Walker) (entry : String) (dirs_only : Bool) :
    Except IOErrorKind (List DirEnt) :=
  if fs.kind entry = FileKind.dir then
    match fs.listing entry with
    | none => Except.error IOErrorKind.ioError
    | some es =>
      let kept := es.filter (fun e =>
        shouldSkip w e.path
          && !(fs.kind e.path == FileKind.symlink)
          && (if dirs_only then fs.kind e.path == FileKind.dir
              else fs.kind e.path == FileKind.file))
      Except.ok (kept.insertionSort pathLe)
  else
    Except.ok []

/-- Model of `Walker::read_entries` (src/src/lib.rs:286-299): sorted directories first,
then sorted files. -/
def readEntries (fs : Fs) (w : Walker) (path : String) :
    Except IOErrorKind (List DirEnt) :=
  match getEntries fs w path true with
  | Except.error e => Except.error e
  | Except.ok dirs =>
    match getEntries fs w path false with
    | Except.error e => Except.error e
    | Except.ok files => Except.ok (dirs ++ files)

/-- The result tree (src/src/lib.rs:340-347): `Entry { dirent, children, depth }`. -/
inductive Entry where
  | mk (dirent : Option DirEnt) (children : List Entry) (depth : Nat) : Entry

/-- Field `dirent` of an `Entry`. -/
def Entry.dirent : Entry → Option DirEnt
  | Entry.mk d _ _ => d

/-- Field `children` of an `Entry`. -/
def Entry.children : Entry → List Entry
  | Entry.mk _ c _ => c

/-- Field `depth` of an `Entry`. -/
def Entry.depth : Entry → Nat
  | Entry.mk _ _ n => n

mutual

/-- Model of `Walker::walk_dir_inner` (src/src/lib.rs:254-282).  The `&mut self`
counter is threaded explicitly: the function returns the result together with
the final `_counter`.  All configuration fields of `w` other than `_counter`
are read-only here, so `w` carries the configuration and `counter` the mutable
state. -/
def walkDirInner (fs : Fs) (w : Walker) (path : String) (depth : Nat)
    (counter : Nat) : Except IOErrorKind (List Entry) × Nat :=
  match readEntries fs w path with
  | Except.error e => (Except.error e, counter)
  | Except.ok entries => walkLoop fs w depth entries [] counter
termination_by (w.max_depth + 1 - depth, 1, 0)

/-- The `for entry in entries` loop body of `walk_dir_inner`
(src/src/lib.rs:262-281), with `children` the accumulator built so far. -/
def walkLoop (fs : Fs) (w : Walker) (depth : Nat) (entries : List DirEnt)
    (children : List Entry) (counter : Nat) :
    Except IOErrorKind (List Entry) × Nat :=
  match entries with
  | [] => (Except.ok children, counter)
  | entry :: rest =>
    let counter1 := counter + 1
    if counter1 = w.max_entries then
      (Except.ok children, counter1)
    else if h : depth ≤ w.max_depth then
      match walkDirInner fs w entry.path (depth + 1) counter1 with
      | (Except.error e, counter2) => (Except.error e, counter2)
      | (Except.ok sub, counter2) =>
        let children1 := children ++ [Entry.mk (some entry) sub depth]
        if w.max_entries ≤ counter2 then
          (Except.ok children1, counter2)
        else
          walkLoop fs w depth rest children1 counter2
    else
      walkLoop fs w depth rest children counter1
termination_by (w.max_depth + 1 - depth, 0, entries.length)
decreasing_by
  · apply Prod.Lex.left
    omega
  · apply Prod.Lex.right
    apply Prod.Lex.right
    simp
  · apply Prod.Lex.right
    apply Prod.Lex.right
    simp

end

/-- Model of `Path::parent` on the canonical absolute paths this development uses:
drop the final component; the parent of the filesystem root is `none`. -/
def pathParent (p : String) : Option String :=
  let rev := p.data.reverse
  match rev.dropWhile (fun c => c ≠ '/') with
  | [] => none
  | ['/'] => if p = ("/") then none else some ("/")
  | _ :: tail =>
    match tail with
    | [] => none
    | _ :: _ => some (String.mk tail.reverse)

/-- Model of `get_parent_entry` (src/src/lib.rs:451-467).  The source calls
`path.parent().unwrap()` and `read_dir(parent).expect(..)` — both panic on
failure — and returns `ErrorKind::InvalidInput` only when the filtered listing
is empty. -/
def getParentEntry (fs : Fs) (path : String) : POut DirEnt :=
  match pathParent path with
  | none => POut.panic ("called `Option::unwrap()` on a `None` value")
  | some parent =>
    match fs.listing parent with
    | none => POut.panic ("Error: could not get the parent directory of the root")
    | some es =>
      match (es.filter (fun e => e.path == path)).head? with
      | some e => POut.ok e
      | none => POut.err IOErrorKind.invalidInput

/-- Model of `Walker::walk_dir` (src/src/lib.rs:241-249).  Returns the outcome together
with the updated walker (whose `_counter` field keeps the value the traversal
left in it; no other field changes). -/
def walkDir (fs : Fs) (w : Walker) : POut Entry × Walker :=
  match fs.canonical w.root with
  | none => (POut.err IOErrorKind.ioError, w)
  | some root =>
    match getParentEntry fs root with
    | POut.panic m => (POut.panic m, w)
    | POut.err e => (POut.err e, w)
    | POut.ok root_entry =>
      match walkDirInner fs w root 0 w._counter with
      | (Except.error e, c) => (POut.err e, { w with _counter := c })
      | (Except.ok children, c) =>
        (POut.ok (Entry.mk (some root_entry) children 0), { w with _counter := c })

/-! ### A fuel-indexed evaluator

`walkDirInner` is defined by well-founded recursion, so it does not reduce
inside the kernel on closed inputs.  `walkDirInnerF` is the same computation
with a structural fuel argument; `walkDirInnerF_eq` shows the two agree for
every sufficient fuel, and `walkDir_eq_walkDirF` transports this to `walkDir`.
Concrete executions in witnesses go through the `F` versions. -/

/-- The loop of `walk_dir_inner`, parameterized by the recursive call `sub`
used for subdirectories. -/
def loopF (sub : String → Nat → Nat → Except IOErrorKind (List Entry) × Nat)
    (w : Walker) (depth : Nat) :
    List DirEnt → List Entry → Nat → Except IOErrorKind (List Entry) × Nat
  | [], children, counter => (Except.ok children, counter)
  | entry :: rest, children, counter =>
    let counter1 := counter + 1
    if counter1 = w.max_entries then
      (Except.ok children, counter1)
    else if depth ≤ w.max_depth then
      match sub entry.path (depth + 1) counter1 with
      | (Except.error e, counter2) => (Except.error e, counter2)
      | (Except.ok sub1, counter2) =>
        let children1 := children ++ [Entry.mk (some entry) sub1 depth]
        if w.max_entries ≤ counter2 then
          (Except.ok children1, counter2)
        else
          loopF sub w depth rest children1 counter2
    else
      loopF sub w depth rest children counter1

/-- Fuel-indexed version of `walkDirInner`. -/
def walkDirInnerF (fs : Fs) (w : Walker) :
    Nat → String → Nat → Nat → Except IOErrorKind (List Entry) × Nat
  | 0, _, _, counter => (Except.ok [], counter)
  | fuel + 1, path, depth, counter =>
    match readEntries fs w path with
    | Except.error e => (Except.error e, counter)
    | Except.ok entries => loopF (walkDirInnerF fs w fuel) w depth entries [] counter

theorem loopF_eq_walkLoop (fs : Fs) (w : Walker) (depth : Nat)
    (sub : String → Nat → Nat → Except IOErrorKind (List Entry) × Nat)
    (hsub : depth ≤ w.max_depth →
      ∀ p c, sub p (depth + 1) c = walkDirInner fs w p (depth + 1) c) :
    ∀ es children counter,
      loopF sub w depth es children counter = walkLoop fs w depth es children counter := by
  intro es
  induction es with
  | nil =>
    intro children counter
    rw [loopF, walkLoop]
  | cons entry rest ih =>
    intro children counter
    rw [loopF, walkLoop]
    by_cases h1 : counter + 1 = w.max_entries
    · simp [h1]
    · by_cases h2 : depth ≤ w.max_depth
      · simp only [h1, if_false, h2, if_true, dif_pos h2]
        rw [hsub h2]
        cases hw : walkDirInner fs w entry.path (depth + 1) (counter + 1) with
        | mk res counter2 =>
          cases res with
          | error e => simp
          | ok sub1 =>
            simp only []
            by_cases h3 : w.max_entries ≤ counter2
            · simp [h3]
            · simp [h3, ih]
      · simp [h1, h2, ih]

theorem walkDirInnerF_eq (fs : Fs) (w : Walker) :
    ∀ fuel path depth counter, depth ≤ w.max_depth + 1 →
      w.max_depth + 2 - depth ≤ fuel →
      walkDirInnerF fs w fuel path depth counter = walkDirInner fs w path depth counter := by
  intro fuel
  induction fuel with
  | zero =>
    intro path depth counter h1 h2
    omega
  | succ fuel ih =>
    intro path depth counter h1 h2
    rw [walkDirInnerF, walkDirInner]
    cases readEntries fs w path with
    | error e => rfl
    | ok entries =>
      exact loopF_eq_walkLoop fs w depth _
        (fun hle p c => ih p (depth + 1) c (by omega) (by omega)) entries [] counter

/-- Fuel-indexed version of `walkDir`. -/
def walkDirF (fs : Fs) (w : Walker) : POut Entry × Walker :=
  match fs.canonical w.root with
  | none => (POut.err IOErrorKind.ioError, w)
  | some root =>
    match getParentEntry fs root with
    | POut.panic m => (POut.panic m, w)
    | POut.err e => (POut.err e, w)
    | POut.ok root_entry =>
      match walkDirInnerF fs w (w.max_depth + 2) root 0 w._counter with
      | (Except.error e, c) => (POut.err e, { w with _counter := c })
      | (Except.ok children, c) =>
        (POut.ok (Entry.mk (some root_entry) children 0), { w with _counter := c })

theorem walkDir_eq_walkDirF (fs : Fs) (w : Walker) : walkDir fs w = walkDirF fs w := by
  rw [walkDir, walkDirF]
  cases hc : fs.canonical w.root with
  | none => rfl
  | some root =>
    dsimp only
    cases hp : getParentEntry fs root with
    | panic m => rfl
    | err e => rfl
    | ok root_entry =>
      dsimp only
      rw [walkDirInnerF_eq fs w (w.max_depth + 2) root 0 w._counter (by omega) (by omega)]

/-! ### Tree consumers: `find` and `into_iter` -/

mutual

/-- Size of an entry tree, used as a termination measure for the queue-based
consumers below. -/
def esize : Entry → Nat
  | Entry.mk _ ch _ => 1 + esizeList ch

/-- Total size of a list of entry trees. -/
def esizeList : List Entry → Nat
  | [] => 0
  | e :: es => esize e + esizeList es

end

theorem esizeList_append (l1 l2 : List Entry) :
    esizeList (l1 ++ l2) = esizeList l1 + esizeList l2 := by
  induction l1 with
  | nil => simp [esizeList]
  | cons e es ih => simp [esizeList, ih]; omega

/-- The loop of `Entry::find` (src/src/lib.rs:377-396).  Popping the front
node and pushing its (reversed) children one by one onto the front leaves the
queue equal to `node.children ++ rest`. -/
def findLoop (name : String) : List Entry → Option Entry
  | [] => none
  | Entry.mk d ch dep :: rest =>
    match d with
    | some dirent =>
      if dirent.name = name then some (Entry.mk d ch dep)
      else findLoop name (ch ++ rest)
    | none => findLoop name (ch ++ rest)
termination_by queue => esizeList queue
decreasing_by
  all_goals simp [esizeList, esize, esizeList_append]

/-- Model of `Entry::find` (src/src/lib.rs:377-396). -/
def Entry.find (e : Entry) (name : String) : Option Entry :=
  findLoop name [e]

/-- Model of `EntryItem` (src/src/lib.rs:410-415). -/
structure EntryItem where
  dirent : DirEnt
  depth : Nat
deriving DecidableEq

/-- The loop of `IntoIterator::into_iter` for `Entry` (src/src/lib.rs:430-447):
flat depth-first pre-order list of the entries carrying a record. -/
def intoIterLoop : List Entry → List EntryItem
  | [] => []
  | Entry.mk d ch dep :: rest =>
    (match d with
     | some dirent => [EntryItem.mk dirent dep]
     | none => []) ++ intoIterLoop (ch ++ rest)
termination_by queue => esizeList queue
decreasing_by
  all_goals simp [esizeList, esize, esizeList_append]

/-- Model of `Entry::into_iter` (src/src/lib.rs:426-448). -/
def Entry.intoIter (e : Entry) : List EntryItem :=
  intoIterLoop [e]

/-! ### Derived notions used by the specification's claims -/

mutual

/-- Number of entry records in a tree (a node contributes 1 when its `dirent`
is present). -/
def countRecords : Entry → Nat
  | Entry.mk d ch _ => (match d with | some _ => 1 | none => 0) + countList ch

/-- Number of entry records in a forest. -/
def countList : List Entry → Nat
  | [] => 0
  | e :: es => countRecords e + countList es

end

theorem countList_append (l1 l2 : List Entry) :
    countList (l1 ++ l2) = countList l1 + countList l2 := by
  induction l1 with
  | nil => simp [countList]
  | cons e es ih => simp [countList, ih]; omega

mutual

/-- Does some node of the tree carry an entry record with the given path? -/
def containsPath : Entry → String → Bool
  | Entry.mk d ch _, p =>
    (match d with
     | some dirent => dirent.path == p
     | none => false) || containsPathList ch p

/-- Does some node of the forest carry an entry record with the given path? -/
def containsPathList : List Entry → String → Bool
  | [], _ => false
  | e :: es, p => containsPath e p || containsPathList es p

end

/-- Ordering condition between two entry records, as stated by the spec's
invariant 1: equal kinds are strictly sorted by path, and a file never comes
before a directory. -/
def dpairOK (fs : Fs) (d1 d2 : DirEnt) : Bool :=
  (!(fs.kind d1.path == FileKind.dir && fs.kind d2.path == FileKind.dir)
      || pathLtB d1.path d2.path)
    && (!(fs.kind d1.path == FileKind.file && fs.kind d2.path == FileKind.file)
      || pathLtB d1.path d2.path)
    && !(fs.kind d1.path == FileKind.file && fs.kind d2.path == FileKind.dir)

/-- Ordering condition between two sibling nodes: their records (when present)
satisfy `dpairOK`. -/
def pairOK (fs : Fs) (c1 c2 : Entry) : Bool :=
  match c1.dirent, c2.dirent with
  | some d1, some d2 => dpairOK fs d1 d2
  | _, _ => true

/-- Boolean pairwise check on a list. -/
def pairwiseB (r : α → α → Bool) : List α → Bool
  | [] => true
  | x :: xs => xs.all (r x) && pairwiseB r xs

theorem pairwiseB_iff (r : α → α → Bool) (l : List α) :
    pairwiseB r l = true ↔ l.Pairwise (fun a b => r a b = true) := by
  induction l with
  | nil => simp [pairwiseB]
  | cons x xs ih => simp [pairwiseB, List.all_eq_true, ih]

mutual

/-- Every node of the tree has `pairwiseB (pairOK fs)` children (the spec's
sibling-ordering invariant), recursively. -/
def orderedTree (fs : Fs) : Entry → Bool
  | Entry.mk _ ch _ => pairwiseB (pairOK fs) ch && orderedForest fs ch

/-- Conjunction of `orderedTree` over every tree of a forest. -/
def orderedForest (fs : Fs) : List Entry → Bool
  | [] => true
  | e :: es => orderedTree fs e && orderedForest fs es

end

theorem orderedForest_append (fs : Fs) (l1 l2 : List Entry) :
    orderedForest fs (l1 ++ l2) = (orderedForest fs l1 && orderedForest fs l2) := by
  induction l1 with
  | nil => simp [orderedForest]
  | cons e es ih => simp [orderedForest, ih, Bool.and_assoc]

/-- Well-formedness of the filesystem oracle: a successful directory listing
never shows two children with the same path (true of any real directory, where
names are unique). -/
def WellFormed (fs : Fs) : Prop :=
  ∀ p l, fs.listing p = some l → (l.map DirEnt.path).Nodup

/-! ### The spec's own wording of the filter predicate (§4.1), for claim C6 -/

/-- Split a character list on the forward slash. -/
def splitSlash : List Char → List Char → List String
  | acc, [] => [String.mk acc.reverse]
  | acc, c :: cs =>
    if c = '/' then String.mk acc.reverse :: splitSlash [] cs
    else splitSlash (c :: acc) cs

/-- Path components of a candidate, splitting on the host separator
(the development models a Unix host, whose only separator is the forward
slash). -/
def pathComponents (p : String) : List String :=
  (splitSlash [] p.data).filter (fun c => c ≠ ("") )

/-- Claim C6's filter predicate, literally as the spec states it: reject a
candidate in the exclusion list; else reject when skip-dotted is set and some
path component begins with a dot; else admit.  (`true` = admit, matching the
orientation of `shouldSkip`.) -/
def filterSpecDotComponents (w : Walker) (path : String) : Bool :=
  if w.skip_directories.contains path then false
  else if w.skip_dotted
      && (pathComponents path).any (fun c => leadMatch ([ '.' ]) c.data) then false
  else true

/-- The amended description of the filter: same structure, but the dotted test
is the source's substring test (`"/."` or `"\\."` anywhere in the path string)
rather than a component-boundary test. -/
def filterSpecSubstring (w : Walker) (path : String) : Bool :=
  if w.skip_directories.contains path then false
  else if w.skip_dotted
      && (strContains path ("/.") || strContains path ("\\.")) then false
  else true

/-! ### Branch equations for the traversal loop -/

theorem walkDirInner_err {fs : Fs} {w : Walker} {path : String} {depth c : Nat}
    {e : IOErrorKind} (h : readEntries fs w path = Except.error e) :
    walkDirInner fs w path depth c = (Except.error e, c) := by
  rw [walkDirInner, h]

theorem walkDirInner_ok {fs : Fs} {w : Walker} {path : String} {depth c : Nat}
    {es : List DirEnt} (h : readEntries fs w path = Except.ok es) :
    walkDirInner fs w path depth c = walkLoop fs w depth es [] c := by
  rw [walkDirInner, h]

theorem walkLoop_nil {fs : Fs} {w : Walker} {depth : Nat} {ch : List Entry}
    {c : Nat} : walkLoop fs w depth [] ch c = (Except.ok ch, c) := by
  rw [walkLoop]

theorem walkLoop_cons_stop {fs : Fs} {w : Walker} {depth : Nat} {entry : DirEnt}
    {rest : List DirEnt} {ch : List Entry} {c : Nat}
    (h1 : c + 1 = w.max_entries) :
    walkLoop fs w depth (entry :: rest) ch c = (Except.ok ch, c + 1) := by
  rw [walkLoop]
  simp only [if_pos h1]

theorem walkLoop_cons_deep {fs : Fs} {w : Walker} {depth : Nat} {entry : DirEnt}
    {rest : List DirEnt} {ch : List Entry} {c : Nat}
    (h1 : ¬ c + 1 = w.max_entries) (h2 : ¬ depth ≤ w.max_depth) :
    walkLoop fs w depth (entry :: rest) ch c = walkLoop fs w depth rest ch (c + 1) := by
  rw [walkLoop]
  simp only [if_neg h1, dif_neg h2]

theorem walkLoop_cons_err {fs : Fs} {w : Walker} {depth : Nat} {entry : DirEnt}
    {rest : List DirEnt} {ch : List Entry} {c c2 : Nat} {e : IOErrorKind}
    (h1 : ¬ c + 1 = w.max_entries) (h2 : depth ≤ w.max_depth)
    (hw : walkDirInner fs w entry.path (depth + 1) (c + 1) = (Except.error e, c2)) :
    walkLoop fs w depth (entry :: rest) ch c = (Except.error e, c2) := by
  rw [walkLoop]
  simp only [if_neg h1, dif_pos h2, hw]

theorem walkLoop_cons_last {fs : Fs} {w : Walker} {depth : Nat} {entry : DirEnt}
    {rest : List DirEnt} {ch : List Entry} {c c2 : Nat} {sub : List Entry}
    (h1 : ¬ c + 1 = w.max_entries) (h2 : depth ≤ w.max_depth)
    (hw : walkDirInner fs w entry.path (depth + 1) (c + 1) = (Except.ok sub, c2))
    (h3 : w.max_entries ≤ c2) :
    walkLoop fs w depth (entry :: rest) ch c =
      (Except.ok (ch ++ [Entry.mk (some entry) sub depth]), c2) := by
  rw [walkLoop]
  simp only [if_neg h1, dif_pos h2, hw, if_pos h3]

theorem walkLoop_cons_go {fs : Fs} {w : Walker} {depth : Nat} {entry : DirEnt}
    {rest : List DirEnt} {ch : List Entry} {c c2 : Nat} {sub : List Entry}
    (h1 : ¬ c + 1 = w.max_entries) (h2 : depth ≤ w.max_depth)
    (hw : walkDirInner fs w entry.path (depth + 1) (c + 1) = (Except.ok sub, c2))
    (h3 : ¬ w.max_entries ≤ c2) :
    walkLoop fs w depth (entry :: rest) ch c =
      walkLoop fs w depth rest (ch ++ [Entry.mk (some entry) sub depth]) c2 := by
  rw [walkLoop]
  simp only [if_neg h1, dif_pos h2, hw, if_neg h3]

/-- Inversion of a successful `walkDir` into its three stages. -/
theorem walkDir_ok_inv {fs : Fs} {w : Walker} {t : Entry} {w' : Walker}
    (h : walkDir fs w = (POut.ok t, w')) :
    ∃ root root_entry children c,
      fs.canonical w.root = some root ∧
      getParentEntry fs root = POut.ok root_entry ∧
      walkDirInner fs w root 0 w._counter = (Except.ok children, c) ∧
      t = Entry.mk (some root_entry) children 0 ∧
      w' = { w with _counter := c } := by
  rw [walkDir] at h
  cases hc : fs.canonical w.root with
  | none => rw [hc] at h; simp at h
  | some root =>
    rw [hc] at h
    dsimp only at h
    cases hp : getParentEntry fs root with
    | panic m => rw [hp] at h; simp at h
    | err e => rw [hp] at h; simp at h
    | ok root_entry =>
      rw [hp] at h
      dsimp only at h
      cases hw : walkDirInner fs w root 0 w._counter with
      | mk res c =>
        rw [hw] at h
        cases res with
        | error e => simp at h
        | ok children =>
          simp only [Prod.mk.injEq, POut.ok.injEq] at h
          exact ⟨root, root_entry, children, c, rfl, hp, hw, h.1.symm, h.2.symm⟩

/-- The visited-entry counter never decreases. -/
theorem counter_mono (fs : Fs) (w : Walker) :
    ∀ fuel depth, w.max_depth + 1 - depth ≤ fuel →
      (∀ path c, c ≤ (walkDirInner fs w path depth c).2) ∧
      (∀ es ch c, c ≤ (walkLoop fs w depth es ch c).2) := by
  intro fuel
  induction fuel with
  | zero =>
    intro depth hd
    have hloop : ∀ es ch c, c ≤ (walkLoop fs w depth es ch c).2 := by
      intro es
      induction es with
      | nil => intro ch c; rw [walkLoop_nil]
      | cons entry rest ih =>
        intro ch c
        by_cases h1 : c + 1 = w.max_entries
        · rw [walkLoop_cons_stop h1]; exact Nat.le_succ c
        · have h2 : ¬ depth ≤ w.max_depth := by omega
          rw [walkLoop_cons_deep h1 h2]
          exact le_trans (Nat.le_succ c) (ih ch (c + 1))
    refine ⟨?_, hloop⟩
    intro path c
    cases hre : readEntries fs w path with
    | error e => rw [walkDirInner_err hre]
    | ok entries => rw [walkDirInner_ok hre]; exact hloop entries [] c
  | succ fuel ih =>
    intro depth hd
    have hloop : ∀ es ch c, c ≤ (walkLoop fs w depth es ch c).2 := by
      intro es
      induction es with
      | nil => intro ch c; rw [walkLoop_nil]
      | cons entry rest ih2 =>
        intro ch c
        by_cases h1 : c + 1 = w.max_entries
        · rw [walkLoop_cons_stop h1]; exact Nat.le_succ c
        · by_cases h2 : depth ≤ w.max_depth
          · have hsub := (ih (depth + 1) (by omega)).1 entry.path (c + 1)
            cases hw : walkDirInner fs w entry.path (depth + 1) (c + 1) with
            | mk res c2 =>
              rw [hw] at hsub
              cases res with
              | error e =>
                rw [walkLoop_cons_err h1 h2 hw]
                exact le_trans (Nat.le_succ c) hsub
              | ok sub =>
                by_cases h3 : w.max_entries ≤ c2
                · rw [walkLoop_cons_last h1 h2 hw h3]
                  exact le_trans (Nat.le_succ c) hsub
                · rw [walkLoop_cons_go h1 h2 hw h3]
                  exact le_trans (le_trans (Nat.le_succ c) hsub)
                    (ih2 (ch ++ [Entry.mk (some entry) sub depth]) c2)
          · rw [walkLoop_cons_deep h1 h2]
            exact le_trans (Nat.le_succ c) (ih2 ch (c + 1))
    refine ⟨?_, hloop⟩
    intro path c
    cases hre : readEntries fs w path with
    | error e => rw [walkDirInner_err hre]
    | ok entries => rw [walkDirInner_ok hre]; exact hloop entries [] c

/-- Counter monotonicity for `walkDirInner` at any depth. -/
theorem walkDirInner_counter_le (fs : Fs) (w : Walker) (path : String)
    (depth c : Nat) : c ≤ (walkDirInner fs w path depth c).2 :=
  (counter_mono fs w (w.max_depth + 1 - depth) depth (le_refl _)).1 path c

/-! ### `find` agrees with the first match of the flat view (claim C8) -/

theorem findLoop_eq_flat (name : String) :
    ∀ n queue, esizeList queue ≤ n →
      Option.map (fun e : Entry => (e.dirent, e.depth)) (findLoop name queue)
        = Option.map (fun it : EntryItem => (some it.dirent, it.depth))
            ((intoIterLoop queue).find? (fun it => it.dirent.name == name)) := by
  intro n
  induction n with
  | zero =>
    intro queue hq
    cases queue with
    | nil => simp [findLoop, intoIterLoop]
    | cons e rest =>
      exfalso
      cases e with
      | mk d ch dep => simp [esizeList, esize] at hq
  | succ n ihn =>
    intro queue hq
    cases queue with
    | nil => simp [findLoop, intoIterLoop]
    | cons e rest =>
      cases e with
      | mk d ch dep =>
        have hsz : esizeList (ch ++ rest) ≤ n := by
          rw [esizeList_append]
          simp [esizeList, esize] at hq
          omega
        rw [findLoop.eq_def, intoIterLoop.eq_def]
        dsimp only
        cases d with
        | none => simpa using ihn (ch ++ rest) hsz
        | some dirent =>
          dsimp only
          by_cases hname : dirent.name = name
          · rw [if_pos hname]
            have hfind : List.find? (fun it : EntryItem => it.dirent.name == name)
                (EntryItem.mk dirent dep :: intoIterLoop (ch ++ rest))
                  = some (EntryItem.mk dirent dep) :=
              List.find?_cons_of_pos _ (by simp [hname])
            simp [hfind, Entry.dirent, Entry.depth]
          · rw [if_neg hname]
            have hfind : List.find? (fun it : EntryItem => it.dirent.name == name)
                (EntryItem.mk dirent dep :: intoIterLoop (ch ++ rest))
                  = List.find? (fun it : EntryItem => it.dirent.name == name)
                      (intoIterLoop (ch ++ rest)) :=
              List.find?_cons_of_neg _ (by simp [hname])
            rw [List.singleton_append, hfind]
            exact ihn (ch ++ rest) hsz

/-! ### The entry-count bound (claim C3) -/

theorem count_bound (fs : Fs) (w : Walker) :
    ∀ fuel depth, w.max_depth + 1 - depth ≤ fuel →
      (∀ path c ch c', c < w.max_entries →
        walkDirInner fs w path depth c = (Except.ok ch, c') →
        c ≤ c' ∧ c' ≤ w.max_entries ∧ countList ch + c ≤ c' ∧
          (c' = w.max_entries → countList ch + c + 1 ≤ c')) ∧
      (∀ es ch c ch' c', c < w.max_entries →
        walkLoop fs w depth es ch c = (Except.ok ch', c') →
        c ≤ c' ∧ c' ≤ w.max_entries ∧ countList ch' + c ≤ countList ch + c' ∧
          (c' = w.max_entries → countList ch' + c + 1 ≤ countList ch + c')) := by
  intro fuel
  induction fuel with
  | zero =>
    intro depth hd
    have hloop : ∀ es ch c ch' c', c < w.max_entries →
        walkLoop fs w depth es ch c = (Except.ok ch', c') →
        c ≤ c' ∧ c' ≤ w.max_entries ∧ countList ch' + c ≤ countList ch + c' ∧
          (c' = w.max_entries → countList ch' + c + 1 ≤ countList ch + c') := by
      intro es
      induction es with
      | nil =>
        intro ch c ch' c' hc h
        rw [walkLoop_nil] at h
        simp only [Prod.mk.injEq, Except.ok.injEq] at h
        obtain ⟨h1, h2⟩ := h
        subst h1; subst h2
        omega
      | cons entry rest ih =>
        intro ch c ch' c' hc h
        by_cases h1 : c + 1 = w.max_entries
        · rw [walkLoop_cons_stop h1] at h
          simp only [Prod.mk.injEq, Except.ok.injEq] at h
          obtain ⟨hA, hB⟩ := h
          subst hA; subst hB
          omega
        · have h2 : ¬ depth ≤ w.max_depth := by omega
          rw [walkLoop_cons_deep h1 h2] at h
          have := ih ch (c + 1) ch' c' (by omega) h
          omega
    refine ⟨?_, hloop⟩
    intro path c ch c' hc h
    cases hre : readEntries fs w path with
    | error e => rw [walkDirInner_err hre] at h; simp at h
    | ok entries =>
      rw [walkDirInner_ok hre] at h
      have := hloop entries [] c ch c' hc h
      simpa [countList] using this
  | succ fuel ihf =>
    intro depth hd
    have hloop : ∀ es ch c ch' c', c < w.max_entries →
        walkLoop fs w depth es ch c = (Except.ok ch', c') →
        c ≤ c' ∧ c' ≤ w.max_entries ∧ countList ch' + c ≤ countList ch + c' ∧
          (c' = w.max_entries → countList ch' + c + 1 ≤ countList ch + c') := by
      intro es
      induction es with
      | nil =>
        intro ch c ch' c' hc h
        rw [walkLoop_nil] at h
        simp only [Prod.mk.injEq, Except.ok.injEq] at h
        obtain ⟨h1, h2⟩ := h
        subst h1; subst h2
        omega
      | cons entry rest ih =>
        intro ch c ch' c' hc h
        by_cases h1 : c + 1 = w.max_entries
        · rw [walkLoop_cons_stop h1] at h
          simp only [Prod.mk.injEq, Except.ok.injEq] at h
          obtain ⟨hA, hB⟩ := h
          subst hA; subst hB
          omega
        · by_cases h2 : depth ≤ w.max_depth
          · cases hw : walkDirInner fs w entry.path (depth + 1) (c + 1) with
            | mk res c2 =>
              cases res with
              | error e =>
                rw [walkLoop_cons_err h1 h2 hw] at h
                simp at h
              | ok sub =>
                have hin := (ihf (depth + 1) (by omega)).1 entry.path (c + 1) sub c2
                  (by omega) hw
                have hcnt : countList (ch ++ [Entry.mk (some entry) sub depth]) =
                    countList ch + (1 + countList sub) := by
                  rw [countList_append]
                  simp [countList, countRecords]
                by_cases h3 : w.max_entries ≤ c2
                · rw [walkLoop_cons_last h1 h2 hw h3] at h
                  simp only [Prod.mk.injEq, Except.ok.injEq] at h
                  obtain ⟨hA, hB⟩ := h
                  subst hA; subst hB
                  have hc2 : c2 = w.max_entries := by omega
                  have := hin.2.2.2 hc2
                  rw [hcnt]
                  omega
                · rw [walkLoop_cons_go h1 h2 hw h3] at h
                  have := ih (ch ++ [Entry.mk (some entry) sub depth]) c2 ch' c'
                    (by omega) h
                  rw [hcnt] at this
                  omega
          · rw [walkLoop_cons_deep h1 h2] at h
            have := ih ch (c + 1) ch' c' (by omega) h
            omega
    refine ⟨?_, hloop⟩
    intro path c ch c' hc h
    cases hre : readEntries fs w path with
    | error e => rw [walkDirInner_err hre] at h; simp at h
    | ok entries =>
      rw [walkDirInner_ok hre] at h
      have := hloop entries [] c ch c' hc h
      simpa [countList] using this

/-! ### Depth behaviour of the loop (claim C1) -/

/-- Beyond the depth bound the loop never pushes a child (it still walks and
counts the remaining entries). -/
theorem walkLoop_too_deep {fs : Fs} {w : Walker} {depth : Nat}
    (h2 : ¬ depth ≤ w.max_depth) :
    ∀ es ch c ch' c', walkLoop fs w depth es ch c = (Except.ok ch', c') →
      ch' = ch := by
  intro es
  induction es with
  | nil =>
    intro ch c ch' c' h
    rw [walkLoop_nil] at h
    simp only [Prod.mk.injEq, Except.ok.injEq] at h
    exact h.1.symm
  | cons entry rest ih =>
    intro ch c ch' c' h
    by_cases h1 : c + 1 = w.max_entries
    · rw [walkLoop_cons_stop h1] at h
      simp only [Prod.mk.injEq, Except.ok.injEq] at h
      exact h.1.symm
    · rw [walkLoop_cons_deep h1 h2] at h
      exact ih ch (c + 1) ch' c' h

/-- Beyond the depth bound `walkDirInner` returns no children. -/
theorem walkDirInner_too_deep {fs : Fs} {w : Walker} {path : String}
    {depth c : Nat} {ch : List Entry} {c' : Nat}
    (h2 : w.max_depth < depth)
    (h : walkDirInner fs w path depth c = (Except.ok ch, c')) : ch = [] := by
  cases hre : readEntries fs w path with
  | error e => rw [walkDirInner_err hre] at h; simp at h
  | ok entries =>
    rw [walkDirInner_ok hre] at h
    exact walkLoop_too_deep (by omega) entries [] c ch c' h

/-- Within the depth bound and the entry budget, every admitted entry becomes
a child node carrying that entry's record, at the encounter depth, in order. -/
theorem walkLoop_all_included {fs : Fs} {w : Walker} {depth : Nat}
    (h2 : depth ≤ w.max_depth) :
    ∀ es ch c ch' c', walkLoop fs w depth es ch c = (Except.ok ch', c') →
      c' < w.max_entries →
      ch'.map Entry.dirent = ch.map Entry.dirent ++ es.map some ∧
      ch'.map Entry.depth = ch.map Entry.depth ++ es.map (fun _ => depth) := by
  intro es
  induction es with
  | nil =>
    intro ch c ch' c' h hlt
    rw [walkLoop_nil] at h
    simp only [Prod.mk.injEq, Except.ok.injEq] at h
    obtain ⟨hA, _⟩ := h
    subst hA
    simp
  | cons entry rest ih =>
    intro ch c ch' c' h hlt
    by_cases h1 : c + 1 = w.max_entries
    · rw [walkLoop_cons_stop h1] at h
      simp only [Prod.mk.injEq, Except.ok.injEq] at h
      omega
    · cases hw : walkDirInner fs w entry.path (depth + 1) (c + 1) with
      | mk res c2 =>
        cases res with
        | error e =>
          rw [walkLoop_cons_err h1 h2 hw] at h
          simp at h
        | ok sub =>
          by_cases h3 : w.max_entries ≤ c2
          · rw [walkLoop_cons_last h1 h2 hw h3] at h
            simp only [Prod.mk.injEq, Except.ok.injEq] at h
            omega
          · rw [walkLoop_cons_go h1 h2 hw h3] at h
            have := ih (ch ++ [Entry.mk (some entry) sub depth]) c2 ch' c' h hlt
            simpa [Entry.dirent, Entry.depth] using this

/-- Every child produced by the loop either was already in the accumulator or
records one of the listed entries, with a subtree produced by descending into
that entry's path at the next depth. -/
theorem walkLoop_descent {fs : Fs} {w : Walker} {depth : Nat} :
    ∀ es ch c ch' c', walkLoop fs w depth es ch c = (Except.ok ch', c') →
      ∀ x ∈ ch', x ∈ ch ∨ ∃ e sub c1 c2, e ∈ es ∧
        x = Entry.mk (some e) sub depth ∧
        walkDirInner fs w e.path (depth + 1) c1 = (Except.ok sub, c2) := by
  intro es
  induction es with
  | nil =>
    intro ch c ch' c' h x hx
    rw [walkLoop_nil] at h
    simp only [Prod.mk.injEq, Except.ok.injEq] at h
    obtain ⟨hA, _⟩ := h
    subst hA
    exact Or.inl hx
  | cons entry rest ih =>
    intro ch c ch' c' h x hx
    by_cases h1 : c + 1 = w.max_entries
    · rw [walkLoop_cons_stop h1] at h
      simp only [Prod.mk.injEq, Except.ok.injEq] at h
      obtain ⟨hA, _⟩ := h
      subst hA
      exact Or.inl hx
    · by_cases h2 : depth ≤ w.max_depth
      · cases hw : walkDirInner fs w entry.path (depth + 1) (c + 1) with
        | mk res c2 =>
          cases res with
          | error e =>
            rw [walkLoop_cons_err h1 h2 hw] at h
            simp at h
          | ok sub =>
            by_cases h3 : w.max_entries ≤ c2
            · rw [walkLoop_cons_last h1 h2 hw h3] at h
              simp only [Prod.mk.injEq, Except.ok.injEq] at h
              obtain ⟨hA, _⟩ := h
              subst hA
              rcases List.mem_append.1 hx with hx1 | hx1
              · exact Or.inl hx1
              · refine Or.inr ⟨entry, sub, c + 1, c2, by simp, ?_, hw⟩
                simpa using hx1
            · rw [walkLoop_cons_go h1 h2 hw h3] at h
              rcases ih (ch ++ [Entry.mk (some entry) sub depth]) c2 ch' c' h x hx with
                hx1 | ⟨e, sub1, c1, cc2, he, hxeq, hsub⟩
              · rcases List.mem_append.1 hx1 with hx2 | hx2
                · exact Or.inl hx2
                · refine Or.inr ⟨entry, sub, c + 1, c2, by simp, ?_, hw⟩
                  simpa using hx2
              · exact Or.inr ⟨e, sub1, c1, cc2, by simp [he], hxeq, hsub⟩
      · rw [walkLoop_cons_deep h1 h2] at h
        rcases ih ch (c + 1) ch' c' h x hx with hx1 | ⟨e, sub1, c1, cc2, he, hxeq, hsub⟩
        · exact Or.inl hx1
        · exact Or.inr ⟨e, sub1, c1, cc2, by simp [he], hxeq, hsub⟩

/-! ### Concrete filesystem fixtures -/

/-- Fixture: `/r` is a directory with one subdirectory `/r/d`, which holds one
file `/r/d/f`. -/
def fsA : Fs where
  listing := fun p =>
    if p = ("/") then some ([DirEnt.mk ("/r") ("r")])
    else if p = ("/r") then some ([DirEnt.mk ("/r/d") ("d")])
    else if p = ("/r/d") then some ([DirEnt.mk ("/r/d/f") ("f")])
    else none
  kind := fun p =>
    if p = ("/") then FileKind.dir else if p = ("/r") then FileKind.dir
    else if p = ("/r/d") then FileKind.dir
    else if p = ("/r/d/f") then FileKind.file else FileKind.other
  canonical := fun p => if p = ("/r") then some ("/r") else none

/-- A walker over `fsA` with `max_depth` 0. -/
def wA : Walker := { Walker.new ("/r") with max_depth := 0 }

/-- Fixture: `/r` is a directory with two files `/r/a` and `/r/b` (listed out
of order, as `read_dir` may). -/
def fsB : Fs where
  listing := fun p =>
    if p = ("/") then some ([DirEnt.mk ("/r") ("r")])
    else if p = ("/r") then some ([DirEnt.mk ("/r/b") ("b"), DirEnt.mk ("/r/a") ("a")])
    else none
  kind := fun p =>
    if p = ("/") then FileKind.dir else if p = ("/r") then FileKind.dir
    else if p = ("/r/a") then FileKind.file
    else if p = ("/r/b") then FileKind.file else FileKind.other
  canonical := fun p => if p = ("/r") then some ("/r") else none

/-- A walker over `fsB` with `max_entries` 1. -/
def wB : Walker := { Walker.new ("/r") with max_entries := 1 }

/-! ### Claim C1 -/

/-- C1 is FALSE on the code: with `max_depth = 0` over `fsA`, the file
`/r/d/f` is reached at depth 1 (the final counter 2 shows both `/r/d` and
`/r/d/f` were consumed, and the third conjunct shows `/r/d/f` is an admitted
child of the included node `/r/d`), yet no node for it appears in the tree —
the claim says a child reached at depth d > maxDepth still appears with an
empty child sequence. -/
theorem claim1_counterexample :
    walkDir fsA wA = (POut.ok (Entry.mk (some (DirEnt.mk ("/r") ("r")))
        [Entry.mk (some (DirEnt.mk ("/r/d") ("d"))) [] 0] 0),
      { wA with _counter := 2 }) ∧
    containsPath (Entry.mk (some (DirEnt.mk ("/r") ("r")))
        [Entry.mk (some (DirEnt.mk ("/r/d") ("d"))) [] 0] 0) ("/r/d/f") = false ∧
    readEntries fsA wA ("/r/d") = Except.ok [DirEnt.mk ("/r/d/f") ("f")] := by
  refine ⟨?_, rfl, rfl⟩
  rw [walkDir_eq_walkDirF]
  exact rfl

/-- C1 (amended): a child encountered at depth d is included — and descended
into, its subtree being a recursive walk at depth d+1 — iff d ≤ maxDepth and
the entry budget is not exhausted; when d > maxDepth the child does not appear
in the tree at all (though it is still counted). -/
theorem claim1_amended (fs : Fs) (w : Walker) (path : String) (depth counter : Nat)
    (ch : List Entry) (c' : Nat)
    (h : walkDirInner fs w path depth counter = (Except.ok ch, c')) :
    (w.max_depth < depth → ch = []) ∧
    (depth ≤ w.max_depth → c' < w.max_entries →
      ∀ es, readEntries fs w path = Except.ok es →
        ch.map Entry.dirent = es.map some ∧
        ch.map Entry.depth = es.map (fun _ => depth)) ∧
    (∀ x ∈ ch, ∃ e sub c1 c2, x = Entry.mk (some e) sub depth ∧
      walkDirInner fs w e.path (depth + 1) c1 = (Except.ok sub, c2)) := by
  refine ⟨?_, ?_, ?_⟩
  · intro hdeep
    exact walkDirInner_too_deep hdeep h
  · intro hle hlt es hre
    rw [walkDirInner_ok hre] at h
    have := walkLoop_all_included hle es [] counter ch c' h hlt
    simpa using this
  · intro x hx
    cases hre : readEntries fs w path with
    | error e => rw [walkDirInner_err hre] at h; simp at h
    | ok es =>
      rw [walkDirInner_ok hre] at h
      rcases walkLoop_descent es [] counter ch c' h x hx with hmem | ⟨e, sub, c1, c2, _, hxeq, hsub⟩
      · cases hmem
      · exact ⟨e, sub, c1, c2, hxeq, hsub⟩

/-- Witness for `claim1_amended` over `fsA`: the inner walk of `/r` at depth 0
includes the single admitted child `/r/d`. -/
theorem claim1_witness :
    [Entry.mk (some (DirEnt.mk ("/r/d") ("d"))) [] 0].map Entry.dirent
        = [DirEnt.mk ("/r/d") ("d")].map some ∧
    [Entry.mk (some (DirEnt.mk ("/r/d") ("d"))) [] 0].map Entry.depth
        = [DirEnt.mk ("/r/d") ("d")].map (fun _ => 0) :=
  (claim1_amended fsA wA ("/r") 0 0
      [Entry.mk (some (DirEnt.mk ("/r/d") ("d"))) [] 0] 2
      (by rw [← walkDirInnerF_eq fsA wA 2 ("/r") 0 0 (by decide) (by decide)]; exact rfl)).2.1
    (by decide) (by decide) [DirEnt.mk ("/r/d") ("d")] rfl

/-! ### Claim C2 -/

/-- C2 is FALSE on the code: with `maxEntries = 1` over `fsB` (whose root has
the admitted children `/r/a` and `/r/b`, as the third conjunct shows), the
returned tree contains the root and NO children — the current sibling is
dropped when the counter reaches the maximum, so the first admitted child is
not included. -/
theorem claim2_counterexample :
    walkDir fsB wB = (POut.ok (Entry.mk (some (DirEnt.mk ("/r") ("r"))) [] 0),
      { wB with _counter := 1 }) ∧
    containsPath (Entry.mk (some (DirEnt.mk ("/r") ("r"))) [] 0) ("/r/a") = false ∧
    readEntries fsB wB ("/r")
      = Except.ok [DirEnt.mk ("/r/a") ("a"), DirEnt.mk ("/r/b") ("b")] := by
  refine ⟨?_, rfl, rfl⟩
  rw [walkDir_eq_walkDirF]
  exact rfl

/-- C2 (amended): when the counter reaches `max_entries` the builder stops and
the current sibling is always EXCLUDED (even though including it would not
put the number of visited children above the maximum); in particular with
`maxEntries = 1` a fresh traversal of a directory root returns the root with
no children at all. -/
theorem claim2_amended (fs : Fs) (w : Walker) :
    (∀ depth entry rest children counter, counter + 1 = w.max_entries →
      walkLoop fs w depth (entry :: rest) children counter
        = (Except.ok children, counter + 1)) ∧
    (w.max_entries = 1 → w._counter = 0 →
      ∀ t w', walkDir fs w = (POut.ok t, w') → t.children = []) := by
  constructor
  · intro depth entry rest children counter h1
    exact walkLoop_cons_stop h1
  · intro h1 h0 t w' h
    obtain ⟨root, root_entry, children, c, hc, hp, hw, ht, hw'⟩ := walkDir_ok_inv h
    have hchildren : children = [] := by
      cases hre : readEntries fs w root with
      | error e => rw [walkDirInner_err hre] at hw; simp at hw
      | ok es =>
        rw [walkDirInner_ok hre] at hw
        cases es with
        | nil =>
          rw [walkLoop_nil] at hw
          simp only [Prod.mk.injEq, Except.ok.injEq] at hw
          exact hw.1.symm
        | cons e rest =>
          rw [h0] at hw
          rw [walkLoop_cons_stop (by omega)] at hw
          simp only [Prod.mk.injEq, Except.ok.injEq] at hw
          exact hw.1.symm
    rw [ht, hchildren]
    rfl

/-- Witness for `claim2_amended` over `fsB`. -/
theorem claim2_witness :
    (Entry.mk (some (DirEnt.mk ("/r") ("r"))) [] 0).children = [] :=
  (claim2_amended fsB wB).2 rfl rfl
    (Entry.mk (some (DirEnt.mk ("/r") ("r"))) [] 0) { wB with _counter := 1 }
    (by rw [walkDir_eq_walkDirF]; exact rfl)

/-! ### Claim C3 -/

/-- C3: for every filesystem and every fresh walker whose entry limit is
positive (the spec's configurations have a positive maximum), a successful
`walk_dir` returns a tree with at most `max_entries` entry records in total,
the root's record included. -/
theorem claim3_entry_budget (fs : Fs) (w : Walker) (t : Entry) (w' : Walker)
    (hpos : 1 ≤ w.max_entries) (h0 : w._counter = 0)
    (h : walkDir fs w = (POut.ok t, w')) : countRecords t ≤ w.max_entries := by
  obtain ⟨root, root_entry, children, c, hc, hp, hw, ht, hw'⟩ := walkDir_ok_inv h
  rw [h0] at hw
  have hcnt := ((count_bound fs w (w.max_depth + 1) 0 (by omega)).1 root 0 children c
    (by omega) hw)
  rw [ht]
  have : countRecords (Entry.mk (some root_entry) children 0) = 1 + countList children := by
    simp [countRecords]
  rw [this]
  omega

/-- Witness for `claim3_entry_budget` over `fsA`. -/
theorem claim3_witness :
    countRecords (Entry.mk (some (DirEnt.mk ("/r") ("r")))
      [Entry.mk (some (DirEnt.mk ("/r/d") ("d"))) [] 0] 0) ≤ 10000 :=
  claim3_entry_budget fsA wA
    (Entry.mk (some (DirEnt.mk ("/r") ("r")))
      [Entry.mk (some (DirEnt.mk ("/r/d") ("d"))) [] 0] 0)
    { wA with _counter := 2 } (by decide) rfl (by rw [walkDir_eq_walkDirF]; exact rfl)

/-! ### Claim C10 -/

/-- C10 is FALSE on the code in its final consequence: the counter is indeed a
`Walker` field that `walk_dir` does not reset (the first conjunct shows the
first call leaves `_counter = 1` in the walker), but a second call on that
walker returns a tree whose root has ONE child, not none: once the counter is
past `max_entries`, the `==` stop test never fires again and one child per
level is pushed before the `>=` test stops the loop. -/
theorem claim10_counterexample :
    (walkDir fsB wB).2 = { wB with _counter := 1 } ∧
    walkDir fsB ((walkDir fsB wB).2)
      = (POut.ok (Entry.mk (some (DirEnt.mk ("/r") ("r")))
          [Entry.mk (some (DirEnt.mk ("/r/a") ("a"))) [] 0] 0),
         { wB with _counter := 2 }) ∧
    (Entry.mk (some (DirEnt.mk ("/r") ("r")))
        [Entry.mk (some (DirEnt.mk ("/r/a") ("a"))) [] 0] 0).children ≠ [] := by
  refine ⟨?_, ?_, ?_⟩
  · rw [walkDir_eq_walkDirF]; exact rfl
  · rw [walkDir_eq_walkDirF fsB wB, walkDir_eq_walkDirF]; exact rfl
  · simp [Entry.children]

/-- C10 (amended): the counter is a `Walker` field never reset by `walk_dir`,
so a second call starts from the counter value the first call left; if the
first call exhausted the entry budget and the root still has at least one
admitted child, the second call returns a tree whose root has exactly ONE
child (not an empty child list), and the counter keeps growing past the
budget. -/
theorem claim10_amended (fs : Fs) (w0 w1 w2 : Walker) (t1 t2 : Entry)
    (r : String) (e : DirEnt) (rest : List DirEnt)
    (h1 : walkDir fs w0 = (POut.ok t1, w1))
    (hfull : w1._counter = w0.max_entries)
    (hr : fs.canonical w1.root = some r)
    (he : readEntries fs w1 r = Except.ok (e :: rest))
    (h2 : walkDir fs w1 = (POut.ok t2, w2)) :
    t2.children.length = 1 ∧ w1._counter < w2._counter := by
  obtain ⟨ra, rea, cha, ca, hca, hpa, hwa, hta, hwa'⟩ := walkDir_ok_inv h1
  have hmax1 : w1.max_entries = w0.max_entries := by rw [hwa']
  obtain ⟨rb, reb, chb, cb, hcb, hpb, hwb, htb, hwb'⟩ := walkDir_ok_inv h2
  have hrb : rb = r := by
    rw [hr] at hcb
    exact (Option.some_inj.mp hcb).symm
  subst hrb
  rw [walkDirInner_ok he] at hwb
  have h1' : ¬ w1._counter + 1 = w1.max_entries := by omega
  have h2' : (0 : Nat) ≤ w1.max_depth := Nat.zero_le _
  cases hw3 : walkDirInner fs w1 e.path (0 + 1) (w1._counter + 1) with
  | mk res cc =>
    cases res with
    | error err =>
      rw [walkLoop_cons_err h1' h2' hw3] at hwb
      simp at hwb
    | ok sub =>
      have hmono : w1._counter + 1 ≤ cc := by
        have := walkDirInner_counter_le fs w1 e.path (0 + 1) (w1._counter + 1)
        rw [hw3] at this
        exact this
      have h3' : w1.max_entries ≤ cc := by omega
      rw [walkLoop_cons_last h1' h2' hw3 h3'] at hwb
      simp only [Prod.mk.injEq, Except.ok.injEq] at hwb
      constructor
      · rw [htb, ← hwb.1]
        rfl
      · rw [hwb']
        simp only []
        omega

/-- Witness for `claim10_amended`: the two-call scenario over `fsB`. -/
theorem claim10_witness :
    (Entry.mk (some (DirEnt.mk ("/r") ("r")))
      [Entry.mk (some (DirEnt.mk ("/r/a") ("a"))) [] 0] 0).children.length = 1 ∧
    (1 : Nat) < 2 :=
  claim10_amended fsB wB { wB with _counter := 1 } { wB with _counter := 2 }
    (Entry.mk (some (DirEnt.mk ("/r") ("r"))) [] 0)
    (Entry.mk (some (DirEnt.mk ("/r") ("r")))
      [Entry.mk (some (DirEnt.mk ("/r/a") ("a"))) [] 0] 0)
    ("/r") (DirEnt.mk ("/r/a") ("a")) [DirEnt.mk ("/r/b") ("b")]
    (by rw [walkDir_eq_walkDirF]; exact rfl) rfl rfl rfl
    (by rw [walkDir_eq_walkDirF]; exact rfl)

/-! ### Claim C4 -/

/-- Is the outcome a returned `Err`? -/
def POut.isErr : POut α → Bool
  | POut.err _ => true
  | _ => false

/-- Fixture: the root `/a/f` is a regular file whose parent directory `/a`
cannot be enumerated (`read_dir` fails on every path). -/
def fsC : Fs where
  listing := fun _ => none
  kind := fun p =>
    if p = ("/a") then FileKind.dir
    else if p = ("/a/f") then FileKind.file else FileKind.other
  canonical := fun p => if p = ("/a/f") then some ("/a/f") else none

/-- A walker rooted at the regular file `/a/f`. -/
def wC : Walker := Walker.new ("/a/f")

/-- C4 is FALSE on the code for the enumeration-failure arm: when the parent
directory of a file root cannot be enumerated, `walk_dir` PANICS (the
`expect` in `get_parent_entry`) instead of returning `IO_ERROR` or
`INVALID_INPUT`. -/
theorem claim4_counterexample :
    (walkDir fsC wC).1
      = POut.panic ("Error: could not get the parent directory of the root") ∧
    (walkDir fsC wC).1.isErr = false := by
  constructor
  · rw [walkDir_eq_walkDirF]; exact rfl
  · rw [walkDir_eq_walkDirF]; exact rfl

/-- C4 (amended): for a root that canonicalizes (in particular a regular
file), failure to enumerate the parent directory makes `walk_dir` PANIC,
while a successful enumeration that does not contain the root makes it return
`INVALID_INPUT`.  (The code never inspects the root's kind on this path, so
the file hypothesis is stated but unused.) -/
theorem claim4_amended (fs : Fs) (w : Walker) (r par : String)
    (hfile : fs.kind r = FileKind.file)
    (hc : fs.canonical w.root = some r)
    (hp : pathParent r = some par) :
    (fs.listing par = none →
      (walkDir fs w).1
        = POut.panic ("Error: could not get the parent directory of the root")) ∧
    (∀ es, fs.listing par = some es →
      es.filter (fun e => e.path == r) = [] →
      (walkDir fs w).1 = POut.err IOErrorKind.invalidInput) := by
  constructor
  · intro hnone
    have hg : getParentEntry fs r
        = POut.panic ("Error: could not get the parent directory of the root") := by
      rw [getParentEntry, hp]
      dsimp only
      rw [hnone]
    rw [walkDir, hc]
    dsimp only
    rw [hg]
  · intro es hsome hfilter
    have hg : getParentEntry fs r = POut.err IOErrorKind.invalidInput := by
      rw [getParentEntry, hp]
      dsimp only
      rw [hsome]
      dsimp only
      rw [hfilter]
      rfl
    rw [walkDir, hc]
    dsimp only
    rw [hg]

/-- Witness for `claim4_amended` over `fsC`. -/
theorem claim4_witness :
    (walkDir fsC wC).1
      = POut.panic ("Error: could not get the parent directory of the root") :=
  (claim4_amended fsC wC ("/a/f") ("/a") rfl rfl rfl).1 rfl

/-! ### Claim C5 -/

/-- Fixture for the configuration step: only `/x` canonicalizes. -/
def fsD : Fs where
  listing := fun _ => none
  kind := fun _ => FileKind.other
  canonical := fun p => if p = ("/x") then some ("/x") else none

/-- C5 is FALSE on the code: a canonicalization failure inside
`skip_directories` PANICS (`unwrap` on an `Err`) — the method returns a bare
`Walker` and cannot return `IO_ERROR` at all. -/
theorem claim5_counterexample :
    skipDirectoriesOp fsD (Walker.new ("/r")) [("/nope")]
      = POut.panic ("called `Result::unwrap()` on an `Err` value") ∧
    (skipDirectoriesOp fsD (Walker.new ("/r")) [("/nope")]).isErr = false := by
  exact ⟨rfl, rfl⟩

theorem canonicalizeAll_ok_forall (fs : Fs) :
    ∀ dirs cs, canonicalizeAll fs dirs = POut.ok cs →
      List.Forall₂ (fun d c => fs.canonical d = some c) dirs cs := by
  intro dirs
  induction dirs with
  | nil =>
    intro cs h
    rw [canonicalizeAll] at h
    simp only [POut.ok.injEq] at h
    rw [← h]
    exact List.Forall₂.nil
  | cons d ds ih =>
    intro cs h
    rw [canonicalizeAll] at h
    cases hc : fs.canonical d with
    | none => rw [hc] at h; simp at h
    | some c =>
      rw [hc] at h
      dsimp only at h
      cases hrec : canonicalizeAll fs ds with
      | ok cs1 =>
        rw [hrec] at h
        simp only [POut.ok.injEq] at h
        rw [← h]
        exact List.Forall₂.cons hc (ih cs1 hrec)
      | err e => rw [hrec] at h; simp at h
      | panic m => rw [hrec] at h; simp at h

theorem canonicalizeAll_ne_err (fs : Fs) :
    ∀ dirs e, canonicalizeAll fs dirs ≠ POut.err e := by
  intro dirs
  induction dirs with
  | nil => intro e h; rw [canonicalizeAll] at h; cases h
  | cons d ds ih =>
    intro e h
    rw [canonicalizeAll] at h
    cases hc : fs.canonical d with
    | none => rw [hc] at h; cases h
    | some c =>
      rw [hc] at h
      dsimp only at h
      cases hrec : canonicalizeAll fs ds with
      | ok cs1 => rw [hrec] at h; cases h
      | err e1 =>
        exact ih e1 hrec
      | panic m => rw [hrec] at h; cases h

theorem canonicalizeAll_fail (fs : Fs) :
    ∀ dirs, (∃ d ∈ dirs, fs.canonical d = none) →
      ∃ m, canonicalizeAll fs dirs = POut.panic m := by
  intro dirs
  induction dirs with
  | nil => intro h; simp at h
  | cons d ds ih =>
    intro h
    rw [canonicalizeAll]
    cases hc : fs.canonical d with
    | none => exact ⟨_, rfl⟩
    | some c =>
      dsimp only
      rcases h with ⟨d1, hd1, hnone⟩
      rcases List.mem_cons.1 hd1 with hd1 | hd1
      · subst hd1; rw [hc] at hnone; cases hnone
      · obtain ⟨m, hm⟩ := ih ⟨d1, hd1, hnone⟩
        rw [hm]
        exact ⟨m, rfl⟩

/-- C5 (amended): `skip_directories` records each input path canonicalized to
absolute form when every canonicalization succeeds; if any canonicalization
fails, the operation PANICS — it never returns `IO_ERROR` (or any error
value), since its return type carries no error case. -/
theorem claim5_amended (fs : Fs) (w : Walker) (dirs : List String) :
    (∀ cs, canonicalizeAll fs dirs = POut.ok cs →
      skipDirectoriesOp fs w dirs = POut.ok { w with skip_directories := cs } ∧
      List.Forall₂ (fun d c => fs.canonical d = some c) dirs cs) ∧
    ((∃ d ∈ dirs, fs.canonical d = none) →
      ∃ m, skipDirectoriesOp fs w dirs = POut.panic m) ∧
    (∀ e, skipDirectoriesOp fs w dirs ≠ POut.err e) := by
  refine ⟨?_, ?_, ?_⟩
  · intro cs h
    constructor
    · rw [skipDirectoriesOp, h]
    · exact canonicalizeAll_ok_forall fs dirs cs h
  · intro h
    obtain ⟨m, hm⟩ := canonicalizeAll_fail fs dirs h
    rw [skipDirectoriesOp, hm]
    exact ⟨m, rfl⟩
  · intro e h
    rw [skipDirectoriesOp] at h
    cases hrec : canonicalizeAll fs dirs with
    | ok cs => rw [hrec] at h; cases h
    | err e1 => exact canonicalizeAll_ne_err fs dirs e1 hrec
    | panic m => rw [hrec] at h; cases h

/-- Witness for `claim5_amended`: a successful configuration over `fsD`. -/
theorem claim5_witness :
    skipDirectoriesOp fsD (Walker.new ("/r")) [("/x")]
      = POut.ok { Walker.new ("/r") with skip_directories := [("/x")] } ∧
    List.Forall₂ (fun d c => fsD.canonical d = some c) [("/x")] [("/x")] :=
  (claim5_amended fsD (Walker.new ("/r")) [("/x")]).1 [("/x")] rfl

/-! ### Claim C6 -/

/-- A walker with the skip-dotted flag set and an empty exclusion list. -/
def wE : Walker := { Walker.new ("/r") with skip_dotted := true }

/-- C6 is FALSE on the code: on a Unix host (separator `/`), the absolute
path `/a\.b` has the single component `a\.b`, which does not begin with a
dot, yet the filter rejects it, because the code tests for the substring
`"\\."` unconditionally rather than on a separator boundary of the host OS. -/
theorem claim6_counterexample :
    shouldSkip wE ("/a\\.b") = false ∧
    filterSpecDotComponents wE ("/a\\.b") = true := by
  exact ⟨rfl, rfl⟩

/-- C6 (amended): the filter rejects a candidate equal to a path in the
exclusion list; otherwise, when the skip-dotted flag is set, it rejects the
candidate iff its path string contains the substring `"/."` or `"\\."`
anywhere (not only on a component boundary); otherwise it admits it. -/
theorem claim6_amended (w : Walker) (path : String) :
    shouldSkip w path = filterSpecSubstring w path := by
  simp only [shouldSkip, filterSpecSubstring]
  cases hsd : w.skip_dotted <;>
    cases hA : strContains path ("/.") <;>
    cases hB : strContains path ("\\.")  <;>
    cases hC : w.skip_directories.contains path <;>
    simp [hsd, hA, hB, hC]

/-! ### Claim C8 -/

/-- C8: `find(name)` returns exactly the node that appears first in the flat
depth-first view among the nodes whose record's file name equals `name` — the
two sides agree as options, so `find` is `none` precisely when no flat item
matches.  (A node is identified by what a flat item carries: its record and
its depth.) -/
theorem claim8_find_first_flat (t : Entry) (name : String) :
    Option.map (fun e : Entry => (e.dirent, e.depth)) (t.find name)
      = Option.map (fun it : EntryItem => (some it.dirent, it.depth))
          ((t.intoIter).find? (fun it => it.dirent.name == name)) :=
  findLoop_eq_flat name (esizeList [t]) [t] (le_refl _)

/-! ### Ordering of siblings (claim C7) -/

/-- Two strings with equal character data are equal. -/
theorem stringDataInj {s t : String} (h : s.data = t.data) : s = t := by
  cases s
  cases t
  simp only at h
  rw [h]

/-- A sorted pair with distinct paths is strictly ordered. -/
theorem pathLt_of_le_ne {a b : DirEnt} (hle : pathLe a b) (hne : a.path ≠ b.path) :
    pathLt a b := by
  simp only [pathLe, pathLeB, pathLtB, Bool.not_eq_true', Bool.not_eq_true] at hle
  simp only [pathLt, pathLtB]
  cases hab : charListLt a.path.data b.path.data with
  | true => rfl
  | false =>
    exact absurd (stringDataInj (charListLt_conn _ _ hab hle)) hne

/-- The sorted output of `get_entries` is strictly ordered when the input
listing has no duplicate paths. -/
theorem sort_strict (l : List DirEnt) (hnd : (l.map DirEnt.path).Nodup) :
    (l.insertionSort pathLe).Pairwise pathLt := by
  have hs : (l.insertionSort pathLe).Pairwise pathLe :=
    List.sorted_insertionSort pathLe l
  have hperm : List.Perm (l.insertionSort pathLe) l := List.perm_insertionSort pathLe l
  have hnd2 : ((l.insertionSort pathLe).map DirEnt.path).Nodup :=
    ((hperm.map DirEnt.path).nodup_iff).2 hnd
  have hne : (l.insertionSort pathLe).Pairwise (fun a b => a.path ≠ b.path) :=
    List.pairwise_map.1 hnd2
  exact (hs.and hne).imp (fun h => pathLt_of_le_ne h.1 h.2)

/-- Properties of one `get_entries` call: strict path order, and every kept
entry has the requested kind. -/
theorem getEntries_props {fs : Fs} {w : Walker} {p : String} {b : Bool}
    {l : List DirEnt} (hwf : WellFormed fs)
    (h : getEntries fs w p b = Except.ok l) :
    l.Pairwise pathLt ∧
    ∀ e ∈ l, fs.kind e.path = (if b then FileKind.dir else FileKind.file) := by
  rw [getEntries] at h
  by_cases hdir : fs.kind p = FileKind.dir
  · rw [if_pos hdir] at h
    cases hls : fs.listing p with
    | none => rw [hls] at h; cases h
    | some es =>
      rw [hls] at h
      dsimp only at h
      simp only [Except.ok.injEq] at h
      subst h
      constructor
      · apply sort_strict
        refine List.Nodup.sublist ?_ (hwf p es hls)
        exact (List.filter_sublist es).map DirEnt.path
      · intro e he
        rw [List.mem_insertionSort] at he
        have := List.of_mem_filter he
        simp only [Bool.and_eq_true, beq_iff_eq] at this
        cases b with
        | true => simpa using this.2
        | false => simpa using this.2
  · rw [if_neg hdir] at h
    simp only [Except.ok.injEq] at h
    subst h
    exact ⟨List.Pairwise.nil, by intro e he; cases he⟩

theorem dpairOK_of_dirs {fs : Fs} {d1 d2 : DirEnt}
    (k1 : fs.kind d1.path = FileKind.dir) (k2 : fs.kind d2.path = FileKind.dir)
    (hlt : pathLt d1 d2) : dpairOK fs d1 d2 = true := by
  simp only [pathLt] at hlt
  simp [dpairOK, k1, k2, hlt]

theorem dpairOK_of_files {fs : Fs} {d1 d2 : DirEnt}
    (k1 : fs.kind d1.path = FileKind.file) (k2 : fs.kind d2.path = FileKind.file)
    (hlt : pathLt d1 d2) : dpairOK fs d1 d2 = true := by
  simp only [pathLt] at hlt
  simp [dpairOK, k1, k2, hlt]

theorem dpairOK_cross {fs : Fs} {d1 d2 : DirEnt}
    (k1 : fs.kind d1.path = FileKind.dir) (k2 : fs.kind d2.path = FileKind.file) :
    dpairOK fs d1 d2 = true := by
  simp [dpairOK, k1, k2]

/-- The full `read_entries` output is pairwise ordered according to the spec's
rule: within a kind strictly by path, and never a file before a directory. -/
theorem readEntries_pairwise {fs : Fs} {w : Walker} {p : String}
    {l : List DirEnt} (hwf : WellFormed fs)
    (h : readEntries fs w p = Except.ok l) :
    l.Pairwise (fun d1 d2 => dpairOK fs d1 d2 = true) := by
  rw [readEntries] at h
  cases hd : getEntries fs w p true with
  | error e => rw [hd] at h; cases h
  | ok dirs =>
    rw [hd] at h
    dsimp only at h
    cases hf : getEntries fs w p false with
    | error e => rw [hf] at h; cases h
    | ok files =>
      rw [hf] at h
      simp only [Except.ok.injEq] at h
      subst h
      obtain ⟨hdp, hdk⟩ := getEntries_props hwf hd
      obtain ⟨hfp, hfk⟩ := getEntries_props hwf hf
      rw [List.pairwise_append]
      refine ⟨?_, ?_, ?_⟩
      · refine hdp.imp_of_mem ?_
        intro d1 d2 h1 h2 hlt
        exact dpairOK_of_dirs (by simpa using hdk d1 h1) (by simpa using hdk d2 h2) hlt
      · refine hfp.imp_of_mem ?_
        intro d1 d2 h1 h2 hlt
        exact dpairOK_of_files (by simpa using hfk d1 h1) (by simpa using hfk d2 h2) hlt
      · intro d1 h1 d2 h2
        exact dpairOK_cross (by simpa using hdk d1 h1) (by simpa using hfk d2 h2)

/-- One step of the ordering argument: pushing the node built from `entry`
onto an accumulator that is ordered and cross-ordered against `entry`. -/
theorem push_ordered {fs : Fs} {depth : Nat} {entry : DirEnt} {sub : List Entry}
    {children : List Entry} {es : List DirEnt}
    (hch : children.Pairwise (fun c1 c2 => pairOK fs c1 c2 = true))
    (hfo : orderedForest fs children = true)
    (hcross : ∀ x ∈ children, ∀ e ∈ entry :: es, ∀ d, x.dirent = some d →
      dpairOK fs d e = true)
    (hsub_pw : sub.Pairwise (fun c1 c2 => pairOK fs c1 c2 = true))
    (hsub_fo : orderedForest fs sub = true) :
    (children ++ [Entry.mk (some entry) sub depth]).Pairwise
        (fun c1 c2 => pairOK fs c1 c2 = true) ∧
    orderedForest fs (children ++ [Entry.mk (some entry) sub depth]) = true := by
  constructor
  · rw [List.pairwise_append]
    refine ⟨hch, List.pairwise_singleton _ _, ?_⟩
    intro x hx n hn
    rw [List.mem_singleton] at hn
    subst hn
    cases x with
    | mk xd xch xdep =>
      cases xd with
      | none => simp [pairOK, Entry.dirent]
      | some d =>
        have := hcross (Entry.mk (some d) xch xdep) hx entry (by simp) d
          (by simp [Entry.dirent])
        simp [pairOK, Entry.dirent, this]
  · rw [orderedForest_append, hfo]
    simp only [orderedForest, orderedTree, Bool.and_true, Bool.true_and]
    rw [(pairwiseB_iff (pairOK fs) sub).2 hsub_pw, hsub_fo]
    rfl

/-- Every successful inner walk yields an ordered forest: the siblings at
every node are pairwise ordered by the spec's rule. -/
theorem ordered_walk (fs : Fs) (w : Walker) (hwf : WellFormed fs) :
    ∀ fuel depth, w.max_depth + 1 - depth ≤ fuel →
      (∀ path c ch c', walkDirInner fs w path depth c = (Except.ok ch, c') →
        ch.Pairwise (fun c1 c2 => pairOK fs c1 c2 = true) ∧
        orderedForest fs ch = true) ∧
      (∀ es children c ch' c',
        es.Pairwise (fun d1 d2 => dpairOK fs d1 d2 = true) →
        children.Pairwise (fun c1 c2 => pairOK fs c1 c2 = true) →
        orderedForest fs children = true →
        (∀ x ∈ children, ∀ e ∈ es, ∀ d, x.dirent = some d → dpairOK fs d e = true) →
        walkLoop fs w depth es children c = (Except.ok ch', c') →
        ch'.Pairwise (fun c1 c2 => pairOK fs c1 c2 = true) ∧
        orderedForest fs ch' = true) := by
  intro fuel
  induction fuel with
  | zero =>
    intro depth hd
    have hloop : ∀ es children c ch' c',
        es.Pairwise (fun d1 d2 => dpairOK fs d1 d2 = true) →
        children.Pairwise (fun c1 c2 => pairOK fs c1 c2 = true) →
        orderedForest fs children = true →
        (∀ x ∈ children, ∀ e ∈ es, ∀ d, x.dirent = some d → dpairOK fs d e = true) →
        walkLoop fs w depth es children c = (Except.ok ch', c') →
        ch'.Pairwise (fun c1 c2 => pairOK fs c1 c2 = true) ∧
        orderedForest fs ch' = true := by
      intro es
      induction es with
      | nil =>
        intro children c ch' c' _ hch hfo _ h
        rw [walkLoop_nil] at h
        simp only [Prod.mk.injEq, Except.ok.injEq] at h
        obtain ⟨hA, _⟩ := h
        subst hA
        exact ⟨hch, hfo⟩
      | cons entry rest ih =>
        intro children c ch' c' hes hch hfo hcross h
        by_cases h1 : c + 1 = w.max_entries
        · rw [walkLoop_cons_stop h1] at h
          simp only [Prod.mk.injEq, Except.ok.injEq] at h
          obtain ⟨hA, _⟩ := h
          subst hA
          exact ⟨hch, hfo⟩
        · have h2 : ¬ depth ≤ w.max_depth := by omega
          rw [walkLoop_cons_deep h1 h2] at h
          exact ih children (c + 1) ch' c' (List.Pairwise.of_cons hes) hch hfo
            (fun x hx e he d hd => hcross x hx e (by simp [he]) d hd) h
    refine ⟨?_, hloop⟩
    intro path c ch c' h
    cases hre : readEntries fs w path with
    | error e => rw [walkDirInner_err hre] at h; simp at h
    | ok entries =>
      rw [walkDirInner_ok hre] at h
      exact hloop entries [] c ch c' (readEntries_pairwise hwf hre)
        List.Pairwise.nil rfl (by intro x hx; cases hx) h
  | succ fuel ihf =>
    intro depth hd
    have hloop : ∀ es children c ch' c',
        es.Pairwise (fun d1 d2 => dpairOK fs d1 d2 = true) →
        children.Pairwise (fun c1 c2 => pairOK fs c1 c2 = true) →
        orderedForest fs children = true →
        (∀ x ∈ children, ∀ e ∈ es, ∀ d, x.dirent = some d → dpairOK fs d e = true) →
        walkLoop fs w depth es children c = (Except.ok ch', c') →
        ch'.Pairwise (fun c1 c2 => pairOK fs c1 c2 = true) ∧
        orderedForest fs ch' = true := by
      intro es
      induction es with
      | nil =>
        intro children c ch' c' _ hch hfo _ h
        rw [walkLoop_nil] at h
        simp only [Prod.mk.injEq, Except.ok.injEq] at h
        obtain ⟨hA, _⟩ := h
        subst hA
        exact ⟨hch, hfo⟩
      | cons entry rest ih =>
        intro children c ch' c' hes hch hfo hcross h
        by_cases h1 : c + 1 = w.max_entries
        · rw [walkLoop_cons_stop h1] at h
          simp only [Prod.mk.injEq, Except.ok.injEq] at h
          obtain ⟨hA, _⟩ := h
          subst hA
          exact ⟨hch, hfo⟩
        · by_cases h2 : depth ≤ w.max_depth
          · cases hw : walkDirInner fs w entry.path (depth + 1) (c + 1) with
            | mk res c2 =>
              cases res with
              | error e =>
                rw [walkLoop_cons_err h1 h2 hw] at h
                simp at h
              | ok sub =>
                obtain ⟨hsub_pw, hsub_fo⟩ :=
                  (ihf (depth + 1) (by omega)).1 entry.path (c + 1) sub c2 hw
                obtain ⟨hch1, hfo1⟩ := push_ordered hch hfo hcross hsub_pw hsub_fo
                by_cases h3 : w.max_entries ≤ c2
                · rw [walkLoop_cons_last h1 h2 hw h3] at h
                  simp only [Prod.mk.injEq, Except.ok.injEq] at h
                  obtain ⟨hA, _⟩ := h
                  subst hA
                  exact ⟨hch1, hfo1⟩
                · rw [walkLoop_cons_go h1 h2 hw h3] at h
                  refine ih (children ++ [Entry.mk (some entry) sub depth]) c2 ch' c'
                    (List.Pairwise.of_cons hes) hch1 hfo1 ?_ h
                  intro x hx e he d hd
                  rcases List.mem_append.1 hx with hx1 | hx1
                  · exact hcross x hx1 e (by simp [he]) d hd
                  · rw [List.mem_singleton] at hx1
                    subst hx1
                    simp only [Entry.dirent, Option.some.injEq] at hd
                    subst hd
                    exact (List.pairwise_cons.1 hes).1 e he
          · rw [walkLoop_cons_deep h1 h2] at h
            exact ih children (c + 1) ch' c' (List.Pairwise.of_cons hes) hch hfo
              (fun x hx e he d hd => hcross x hx e (by simp [he]) d hd) h
    refine ⟨?_, hloop⟩
    intro path c ch c' h
    cases hre : readEntries fs w path with
    | error e => rw [walkDirInner_err hre] at h; simp at h
    | ok entries =>
      rw [walkDirInner_ok hre] at h
      exact hloop entries [] c ch c' (readEntries_pairwise hwf hre)
        List.Pairwise.nil rfl (by intro x hx; cases hx) h

/-! ### Claim C7 -/

/-- C7: over a well-formed filesystem (no directory lists the same path
twice), every node of a tree returned by `walk_dir` has ordered children:
two directory siblings or two file siblings in traversal order are strictly
ordered by path, and no directory sibling follows a file sibling.
(`orderedTree` checks exactly this `pairOK` condition at every node.) -/
theorem claim7_children_ordered (fs : Fs) (w : Walker) (t : Entry) (w' : Walker)
    (hwf : WellFormed fs) (h : walkDir fs w = (POut.ok t, w')) :
    orderedTree fs t = true := by
  obtain ⟨root, root_entry, children, c, hc, hp, hw, ht, _⟩ := walkDir_ok_inv h
  obtain ⟨hpw, hfo⟩ := (ordered_walk fs w hwf (w.max_depth + 1) 0 (by omega)).1
    root w._counter children c hw
  rw [ht]
  simp only [orderedTree]
  rw [(pairwiseB_iff (pairOK fs) children).2 hpw, hfo]
  rfl

/-- The fixture `fsB` is well-formed. -/
theorem fsB_wellFormed : WellFormed fsB := by
  intro p l hl
  simp only [fsB] at hl
  by_cases h1 : p = ("/")
  · rw [if_pos h1] at hl
    simp only [Option.some.injEq] at hl
    subst hl
    decide
  · rw [if_neg h1] at hl
    by_cases h2 : p = ("/r")
    · rw [if_pos h2] at hl
      simp only [Option.some.injEq] at hl
      subst hl
      decide
    · rw [if_neg h2] at hl
      cases hl

/-- Witness for `claim7_children_ordered`: the default walk of `fsB`. -/
theorem claim7_witness :
    orderedTree fsB (Entry.mk (some (DirEnt.mk ("/r") ("r")))
      [Entry.mk (some (DirEnt.mk ("/r/a") ("a"))) [] 0,
       Entry.mk (some (DirEnt.mk ("/r/b") ("b"))) [] 0] 0) = true :=
  claim7_children_ordered fsB (Walker.new ("/r"))
    (Entry.mk (some (DirEnt.mk ("/r") ("r")))
      [Entry.mk (some (DirEnt.mk ("/r/a") ("a"))) [] 0,
       Entry.mk (some (DirEnt.mk ("/r/b") ("b"))) [] 0] 0)
    { Walker.new ("/r") with _counter := 2 } fsB_wellFormed
    (by rw [walkDir_eq_walkDirF]; exact rfl)

/-! ### Determinism up to enumeration order (claim C9)

`read_dir` may hand back a directory's children in any order; the filesystem
STATE is the multiset of children per directory plus the metadata.  Two
oracles describe the same state when their kinds and canonicalizations agree
and their listings are permutations of each other; `walk_dir` is proved to be
a function of the state: it returns bit-identical results on equivalent
oracles, hence two runs over one unchanged filesystem agree. -/

/-- Listings describe the same directory state: both fail, or both succeed
with the same children in some order. -/
def listingEquiv : Option (List DirEnt) → Option (List DirEnt) → Prop
  | none, none => True
  | some l, some l' => List.Perm l l'
  | _, _ => False

theorem listingEquiv_refl (o : Option (List DirEnt)) : listingEquiv o o := by
  cases o with
  | none => exact trivial
  | some l => exact List.Perm.refl l

/-- Sorting is invariant under permutation of a duplicate-free input. -/
theorem sort_eq_of_perm (l l' : List DirEnt) (hperm : List.Perm l l')
    (hnd : (l.map DirEnt.path).Nodup) :
    l.insertionSort pathLe = l'.insertionSort pathLe := by
  have hnd' : (l'.map DirEnt.path).Nodup := ((hperm.map DirEnt.path).nodup_iff).1 hnd
  have hp : List.Perm (l.insertionSort pathLe) (l'.insertionSort pathLe) :=
    ((List.perm_insertionSort pathLe l).trans hperm).trans
      (List.perm_insertionSort pathLe l').symm
  exact List.eq_of_perm_of_sorted hp (sort_strict l hnd) (sort_strict l' hnd')

theorem getEntries_congr {fs fs' : Fs} (w : Walker) (p : String) (b : Bool)
    (hwf : WellFormed fs)
    (hk : ∀ q, fs.kind q = fs'.kind q)
    (hl : listingEquiv (fs.listing p) (fs'.listing p)) :
    getEntries fs w p b = getEntries fs' w p b := by
  rw [getEntries, getEntries, ← hk p]
  by_cases hdir : fs.kind p = FileKind.dir
  · rw [if_pos hdir, if_pos hdir]
    cases hfs : fs.listing p with
    | none =>
      cases hfs' : fs'.listing p with
      | none => rfl
      | some l' =>
        rw [hfs, hfs'] at hl
        simp [listingEquiv] at hl
    | some es =>
      cases hfs' : fs'.listing p with
      | none =>
        rw [hfs, hfs'] at hl
        simp [listingEquiv] at hl
      | some es' =>
        rw [hfs, hfs'] at hl
        have hperm : List.Perm es es' := hl
        dsimp only
        have hfc : es'.filter (fun e =>
              shouldSkip w e.path
                && !(fs'.kind e.path == FileKind.symlink)
                && (if b then fs'.kind e.path == FileKind.dir
                    else fs'.kind e.path == FileKind.file))
            = es'.filter (fun e =>
              shouldSkip w e.path
                && !(fs.kind e.path == FileKind.symlink)
                && (if b then fs.kind e.path == FileKind.dir
                    else fs.kind e.path == FileKind.file)) := by
          apply List.filter_congr
          intro e _
          rw [hk e.path]
        rw [hfc]
        apply congrArg Except.ok
        apply sort_eq_of_perm
        · exact hperm.filter _
        · refine List.Nodup.sublist ?_ (hwf p es hfs)
          exact (List.filter_sublist es).map DirEnt.path
  · rw [if_neg hdir, if_neg hdir]

theorem readEntries_congr {fs fs' : Fs} (w : Walker) (p : String)
    (hwf : WellFormed fs)
    (hk : ∀ q, fs.kind q = fs'.kind q)
    (hl : listingEquiv (fs.listing p) (fs'.listing p)) :
    readEntries fs w p = readEntries fs' w p := by
  rw [readEntries, readEntries,
    getEntries_congr w p true hwf hk hl, getEntries_congr w p false hwf hk hl]

theorem filter_path_len_le_one (x : String) :
    ∀ es : List DirEnt, (es.map DirEnt.path).Nodup →
      (es.filter (fun e => e.path == x)).length ≤ 1 := by
  intro es
  induction es with
  | nil => intro _; simp
  | cons e es ih =>
    intro hnd
    simp only [List.map_cons, List.nodup_cons] at hnd
    obtain ⟨hnotin, hnd2⟩ := hnd
    cases hpe : (e.path == x) with
    | true =>
      have hstep : List.filter (fun e1 => e1.path == x) (e :: es)
          = e :: List.filter (fun e1 => e1.path == x) es := by
        simp [List.filter_cons, hpe]
      have hempty : es.filter (fun e1 => e1.path == x) = [] := by
        rw [List.filter_eq_nil_iff]
        intro a ha hax
        apply hnotin
        simp only [beq_iff_eq] at hpe hax
        rw [hpe, ← hax]
        exact List.mem_map_of_mem DirEnt.path ha
      rw [hstep, hempty]
      simp
    | false =>
      have hstep : List.filter (fun e1 => e1.path == x) (e :: es)
          = List.filter (fun e1 => e1.path == x) es := by
        simp [List.filter_cons, hpe]
      rw [hstep]
      exact ih hnd2

theorem perm_len_le_one_eq {α : Type} {l l' : List α}
    (h : List.Perm l l') (hlen : l.length ≤ 1) : l = l' := by
  cases l with
  | nil => exact (List.Perm.eq_nil h.symm).symm
  | cons a as =>
    cases as with
    | nil => exact (List.perm_singleton.1 h.symm).symm
    | cons b bs => simp at hlen

theorem getParentEntry_congr {fs fs' : Fs} (r : String) (hwf : WellFormed fs)
    (hl : ∀ q, listingEquiv (fs.listing q) (fs'.listing q)) :
    getParentEntry fs r = getParentEntry fs' r := by
  rw [getParentEntry, getParentEntry]
  cases pathParent r with
  | none => rfl
  | some par =>
    dsimp only
    have hlp := hl par
    cases hfs : fs.listing par with
    | none =>
      cases hfs' : fs'.listing par with
      | none => rfl
      | some l' =>
        rw [hfs, hfs'] at hlp
        simp [listingEquiv] at hlp
    | some es =>
      cases hfs' : fs'.listing par with
      | none =>
        rw [hfs, hfs'] at hlp
        simp [listingEquiv] at hlp
      | some es' =>
        rw [hfs, hfs'] at hlp
        have hperm : List.Perm es es' := hlp
        dsimp only
        have hfeq : es.filter (fun e => e.path == r)
            = es'.filter (fun e => e.path == r) :=
          perm_len_le_one_eq (hperm.filter _)
            (filter_path_len_le_one r es (hwf par es hfs))
        rw [hfeq]

theorem walk_congr (fs fs' : Fs) (w : Walker) (hwf : WellFormed fs)
    (hk : ∀ q, fs.kind q = fs'.kind q)
    (hl : ∀ q, listingEquiv (fs.listing q) (fs'.listing q)) :
    ∀ fuel depth, w.max_depth + 1 - depth ≤ fuel →
      (∀ path c, walkDirInner fs w path depth c = walkDirInner fs' w path depth c) ∧
      (∀ es children c,
        walkLoop fs w depth es children c = walkLoop fs' w depth es children c) := by
  intro fuel
  induction fuel with
  | zero =>
    intro depth hd
    have hloop : ∀ es children c,
        walkLoop fs w depth es children c = walkLoop fs' w depth es children c := by
      intro es
      induction es with
      | nil => intro children c; rw [walkLoop_nil, walkLoop_nil]
      | cons entry rest ih =>
        intro children c
        by_cases h1 : c + 1 = w.max_entries
        · rw [walkLoop_cons_stop h1, walkLoop_cons_stop h1]
        · have h2 : ¬ depth ≤ w.max_depth := by omega
          rw [walkLoop_cons_deep h1 h2, walkLoop_cons_deep h1 h2]
          exact ih children (c + 1)
    refine ⟨?_, hloop⟩
    intro path c
    have hre2 := readEntries_congr w path hwf hk (hl path)
    cases hre : readEntries fs w path with
    | error e =>
      rw [walkDirInner_err hre, walkDirInner_err (by rw [← hre2]; exact hre)]
    | ok entries =>
      rw [walkDirInner_ok hre, walkDirInner_ok (by rw [← hre2]; exact hre)]
      exact hloop entries [] c
  | succ fuel ihf =>
    intro depth hd
    have hloop : ∀ es children c,
        walkLoop fs w depth es children c = walkLoop fs' w depth es children c := by
      intro es
      induction es with
      | nil => intro children c; rw [walkLoop_nil, walkLoop_nil]
      | cons entry rest ih =>
        intro children c
        by_cases h1 : c + 1 = w.max_entries
        · rw [walkLoop_cons_stop h1, walkLoop_cons_stop h1]
        · by_cases h2 : depth ≤ w.max_depth
          · have hsub := (ihf (depth + 1) (by omega)).1 entry.path (c + 1)
            cases hw : walkDirInner fs w entry.path (depth + 1) (c + 1) with
            | mk res c2 =>
              have hw' : walkDirInner fs' w entry.path (depth + 1) (c + 1) = (res, c2) := by
                rw [← hsub]; exact hw
              cases res with
              | error e =>
                rw [walkLoop_cons_err h1 h2 hw, walkLoop_cons_err h1 h2 hw']
              | ok sub =>
                by_cases h3 : w.max_entries ≤ c2
                · rw [walkLoop_cons_last h1 h2 hw h3, walkLoop_cons_last h1 h2 hw' h3]
                · rw [walkLoop_cons_go h1 h2 hw h3, walkLoop_cons_go h1 h2 hw' h3]
                  exact ih (children ++ [Entry.mk (some entry) sub depth]) c2
          · rw [walkLoop_cons_deep h1 h2, walkLoop_cons_deep h1 h2]
            exact ih children (c + 1)
    refine ⟨?_, hloop⟩
    intro path c
    have hre2 := readEntries_congr w path hwf hk (hl path)
    cases hre : readEntries fs w path with
    | error e =>
      rw [walkDirInner_err hre, walkDirInner_err (by rw [← hre2]; exact hre)]
    | ok entries =>
      rw [walkDirInner_ok hre, walkDirInner_ok (by rw [← hre2]; exact hre)]
      exact hloop entries [] c

/-! ### Claim C9 -/

/-- C9: `walk_dir` is a deterministic function of the filesystem state and
the configuration.  Enumeration order is the one thing the OS may vary
between two runs over an unchanged filesystem, so the state is captured up to
per-directory permutation of listings: on two equivalent well-formed oracles
the traversal returns bit-identical results (the same tree AND the same
final walker). -/
theorem claim9_deterministic (fs fs' : Fs) (w : Walker)
    (hk : ∀ q, fs.kind q = fs'.kind q)
    (hc : ∀ q, fs.canonical q = fs'.canonical q)
    (hl : ∀ q, listingEquiv (fs.listing q) (fs'.listing q))
    (hwf : WellFormed fs) :
    walkDir fs w = walkDir fs' w := by
  rw [walkDir, walkDir, ← hc w.root]
  cases hcc : fs.canonical w.root with
  | none => rfl
  | some root =>
    dsimp only
    rw [← getParentEntry_congr root hwf hl]
    cases hp : getParentEntry fs root with
    | panic m => rfl
    | err e => rfl
    | ok root_entry =>
      dsimp only
      rw [← (walk_congr fs fs' w hwf hk hl (w.max_depth + 1) 0 (by omega)).1
        root w._counter]

/-- A second oracle for the state of `fsB`, whose `read_dir` enumerates `/r`
in the opposite order. -/
def fsB2 : Fs where
  listing := fun p =>
    if p = ("/r") then some ([DirEnt.mk ("/r/a") ("a"), DirEnt.mk ("/r/b") ("b")])
    else fsB.listing p
  kind := fsB.kind
  canonical := fsB.canonical

/-- Witness for `claim9_deterministic`: walks of `fsB` and `fsB2` coincide. -/
theorem claim9_witness :
    walkDir fsB (Walker.new ("/r")) = walkDir fsB2 (Walker.new ("/r")) :=
  claim9_deterministic fsB fsB2 (Walker.new ("/r"))
    (fun _ => rfl) (fun _ => rfl)
    (by
      intro q
      by_cases h : q = ("/r")
      · subst h
        exact List.Perm.swap (DirEnt.mk ("/r/a") ("a")) (DirEnt.mk ("/r/b") ("b")) []
      · have h2 : fsB2.listing q = fsB.listing q := by
          simp [fsB2, h]
        rw [h2]
        exact listingEquiv_refl (fsB.listing q))
    fsB_wellFormed

end DirWalker
